import Mathlib

set_option maxHeartbeats 1000000

/-!
Verification of the `cargo-sync-readme` extraction / transform / splice
pipeline.  Text is embedded as `List Char`; documents are handled through a
`splitLines` / `unlines` pair so that byte-level and line-level views agree.
The library components (`extract_inner_doc`, `transform_readme`, the marker
scanner and the link rewriter) are not part of the shipped sources, so they
are modelled from the specification; the command-line dispatch is embedded
from `src/src/main.rs`.
-/

namespace SyncReadme

instance {e a : Type} [DecidableEq e] [DecidableEq a] : DecidableEq (Except e a) := fun x y =>
  match x, y with
  | .ok u, .ok v =>
    if h : u = v then .isTrue (by rw [h]) else .isFalse (by intro hh; cases hh; exact h rfl)
  | .error u, .error v =>
    if h : u = v then .isTrue (by rw [h]) else .isFalse (by intro hh; cases hh; exact h rfl)
  | .ok _, .error _ => .isFalse (by intro hh; cases hh)
  | .error _, .ok _ => .isFalse (by intro hh; cases hh)

/-! ### Lines -/

/-- Splits a character list into its lines at each newline character.  The
newline characters themselves are dropped; a carriage return stays part of
its line.  A text ending in a newline yields a final empty line, so that
`unlines` is a strict inverse. -/
def splitLines : List Char → List (List Char)
  | [] => [[]]
  | c :: rest =>
    if c = '\n' then [] :: splitLines rest
    else
      match splitLines rest with
      | [] => [[c]]
      | l :: ls => (c :: l) :: ls

/-- Joins lines back into one character list, separating them with a single
newline character. -/
def unlines : List (List Char) → List Char
  | [] => []
  | [l] => l
  | l :: ls => l ++ '\n' :: unlines ls

/-- Joins lines with an arbitrary separator (used for the requested newline
convention when assembling the Doc Block). -/
def joinWith (sep : List Char) : List (List Char) → List Char
  | [] => []
  | [l] => l
  | l :: ls => l ++ sep ++ joinWith sep ls

/-- The newline sequence selected by the CRLF flag. -/
def nlStr (crlf : Bool) : List Char := if crlf then ['\r', '\n'] else ['\n']

/-- The bytes contributed by the lines in front of a line-level splice
point: empty for no lines, otherwise the joined lines plus the newline
separating them from what follows. -/
def joinL (A : List (List Char)) : List Char :=
  if A = [] then [] else unlines A ++ ['\n']

/-- The bytes contributed by the lines behind a line-level splice point:
empty for no lines, otherwise the separating newline plus the joined
lines. -/
def joinR (B : List (List Char)) : List Char :=
  if B = [] then [] else '\n' :: unlines B

/-- Appends a character to the last line of a line list (how appending a
newline-free character changes a line decomposition). -/
def appendLast (c : Char) : List (List Char) → List (List Char)
  | [] => []
  | [l] => [l ++ [c]]
  | l :: ls => l :: appendLast c ls

/-- Removes leading and trailing whitespace from a line. -/
def trim (l : List Char) : List Char :=
  ((l.dropWhile Char.isWhitespace).reverse.dropWhile Char.isWhitespace).reverse

/-- Indices of the elements of a list satisfying a predicate, in increasing
order. -/
def idxWhere {α : Type} (p : α → Bool) : List α → List Nat
  | [] => []
  | a :: as =>
    if p a then 0 :: (idxWhere p as).map (· + 1) else (idxWhere p as).map (· + 1)

/-! ### Markers -/

/-- The placeholder marker literal. -/
def placeholderMarker : List Char := "<!-- cargo-sync-readme -->".data

/-- The start marker literal. -/
def startMarker : List Char := "<!-- cargo-sync-readme start -->".data

/-- The end marker literal. -/
def endMarker : List Char := "<!-- cargo-sync-readme end -->".data

/-- A line is a placeholder-marker line when it equals the placeholder
marker up to surrounding whitespace. -/
def isPlaceholderLine (l : List Char) : Bool := trim l == placeholderMarker

/-- A line is a start-marker line when it equals the start marker up to
surrounding whitespace. -/
def isStartLine (l : List Char) : Bool := trim l == startMarker

/-- A line is an end-marker line when it equals the end marker up to
surrounding whitespace. -/
def isEndLine (l : List Char) : Bool := trim l == endMarker

/-- Structural document errors reported by the marker scanner. -/
inductive ScanError where
  | noMarkers
  | multiplePlaceholders
  | mismatchedMarkers
deriving DecidableEq

/-- A successfully resolved marker configuration: either the line index of
the single placeholder, or the line indices of the start/end marker pair. -/
inductive MarkerCfg where
  | placeholderOnly (i : Nat)
  | startEnd (i j : Nat)
deriving DecidableEq

/-- Modelled from the spec: the Marker Scanner (§4.4) of the library, which
is not among the shipped sources.  It scans the document's lines for the
three marker literals (each on its own line, surrounding whitespace
tolerated).  Two or more placeholders are a structural error (§8, §4.4);
otherwise exactly one placeholder with no start/end pair resolves to the
placeholder's line, and exactly one start with exactly one end, the start
preceding the end, resolves to the pair (a single placeholder is ignored in
that case, §4.4); every other configuration is a structural error. -/
def findMarkers (ls : List (List Char)) : Except ScanError MarkerCfg :=
  let ps := idxWhere isPlaceholderLine ls
  let ss := idxWhere isStartLine ls
  let es := idxWhere isEndLine ls
  if 2 ≤ ps.length then .error .multiplePlaceholders
  else
    match ss, es with
    | [], [] =>
      match ps with
      | [i] => .ok (.placeholderOnly i)
      | _ => .error .noMarkers
    | [i], [j] =>
      if i < j then .ok (.startEnd i j) else .error .mismatchedMarkers
    | _, _ => .error .mismatchedMarkers

/-! ### Link rewriting -/

/-- The crate-relative link destination introducer. -/
def crateRefStr : List Char := "crate::".data

/-- Splits a character list at the first closing parenthesis, returning the
part before it and the part after it. -/
def splitAtClose : List Char → Option (List Char × List Char)
  | [] => none
  | c :: rest =>
    if c = ')' then some ([], rest)
    else
      match splitAtClose rest with
      | none => none
      | some (a, b) => some (c :: a, b)

/-- Rewrites every `::` path separator to `/` in a crate-relative path. -/
def pathRewrite : List Char → List Char
  | [] => []
  | [c] => [c]
  | c :: d :: rest =>
    if c = ':' ∧ d = ':' then '/' :: pathRewrite rest
    else c :: pathRewrite (d :: rest)

/-- The docs.rs destination generated for a crate-relative path. -/
def urlOf (crate path : List Char) : List Char :=
  "https://docs.rs/".data ++ crate ++ "/latest/".data ++ crate ++
    "/".data ++ pathRewrite path

/-- Fuelled worker for the link rewriter; the fuel dominates the length of
the remaining input, so the `0` case is never reached from `rewriteLinks`.
At each `](`, when the destination starts with the crate-relative
introducer and closes, the destination is rewritten; otherwise scanning
continues right after the `](`. -/
def rewriteLinksF (crate : List Char) : Nat → List Char → List Char
  | 0, l => l
  | _ + 1, [] => []
  | fuel + 1, c :: rest =>
    if c = ']' ∧ rest.head? = some '(' then
      if crateRefStr.isPrefixOf rest.tail then
        match splitAtClose (rest.tail.drop crateRefStr.length) with
        | some (path, rest2) =>
          ']' :: '(' :: (urlOf crate path ++ ')' :: rewriteLinksF crate fuel rest2)
        | none => ']' :: '(' :: rewriteLinksF crate fuel rest.tail
      else ']' :: '(' :: rewriteLinksF crate fuel rest.tail
    else c :: rewriteLinksF crate fuel rest

/-- Modelled from the spec: the Link Rewriter (§4.3) of the library, which
is not among the shipped sources.  It detects inline link destinations of
the exact form `(crate::path::to::item)` and rewrites the destination to
the docs.rs URL for the crate, preserving the visible link text; anything
else passes through unchanged.  The entry-point parameter (a library versus
binary target affecting the path segment) is left out, as the spec fixes
only the library form of the URL. -/
def rewriteLinks (crate l : List Char) : List Char :=
  rewriteLinksF crate l.length l

/-! ### Doc extraction -/

/-- The inner doc-comment marker. -/
def docMarkerStr : List Char := "//!".data

/-- The code-fence delimiter. -/
def fenceStr : List Char := "```".data

/-- The hidden-line marker used inside fenced code blocks. -/
def hiddenStr : List Char := "#".data

/-- Modelled from the spec: the Line Classifier (§4.1) of the library,
which is not among the shipped sources.  A line belongs to the inner
documentation when it starts with the doc-comment marker; its content is
the line with the marker and at most one following space removed. -/
def stripDocMarker (l : List Char) : Option (List Char) :=
  if docMarkerStr.isPrefixOf l then
    let r := l.drop 3
    if r.head? = some ' ' then some r.tail else some r
  else none

/-- A doc line consisting of a code-fence delimiter (three backticks,
optionally followed by a language tag). -/
def isFenceLine (c : List Char) : Bool := fenceStr.isPrefixOf c

/-- A doc line starting with the hidden-line marker. -/
def isHiddenLine (c : List Char) : Bool := hiddenStr.isPrefixOf c

/-- Removes the carriage return terminating a source line of a CRLF file. -/
def dropTrailingCr (l : List Char) : List Char :=
  if l.getLast? = some '\r' then l.dropLast else l

/-- The source lines of the entry file (newline-split, carriage returns
stripped, as a Rust line iterator produces them). -/
def srcLines (s : List Char) : List (List Char) :=
  (splitLines s).map dropTrailingCr

/-- Modelled from the spec: the core loop of the Doc Extractor (§4.2) of
the library, which is not among the shipped sources.  It walks the leading
contiguous run of doc-comment lines, toggling the fence state at each
fence-delimiter line; a hidden-marked line inside a fence is dropped unless
hidden lines were requested; fence-delimiter lines themselves are always
retained. -/
def extractLines : List (List Char) → Bool → Bool → List (List Char)
  | [], _, _ => []
  | l :: ls, showHidden, inFence =>
    match stripDocMarker l with
    | none => []
    | some c =>
      if isFenceLine c then c :: extractLines ls showHidden (!inFence)
      else if inFence && isHiddenLine c && !showHidden then
        extractLines ls showHidden inFence
      else c :: extractLines ls showHidden inFence

/-- Modelled from the spec: `extract_inner_doc` (§4.2) of the library,
which is not among the shipped sources.  It extracts the leading inner
doc-comment run of the entry source and joins the retained lines with the
requested newline convention. -/
def extract_inner_doc (src : List Char) (showHidden crlf : Bool) : List Char :=
  joinWith (nlStr crlf) (extractLines (srcLines src) showHidden false)

/-- The contents of the full leading doc-comment run, before hidden-line
filtering (the Line Classifier driven across the source, §4.1). -/
def docRun : List (List Char) → List (List Char)
  | [] => []
  | l :: ls =>
    match stripDocMarker l with
    | none => []
    | some c => c :: docRun ls

/-- The fence state after scanning a list of doc lines from a given initial
state (§4.2: toggled at each fence-delimiter line). -/
def foldFence (b : Bool) (cs : List (List Char)) : Bool :=
  cs.foldl (fun s c => if isFenceLine c then !s else s) b

/-- Hidden-line filtering in isolation: drops the lines that are inside a
fence and start with the hidden marker, threading the fence state. -/
def filterHidden : Bool → List (List Char) → List (List Char)
  | _, [] => []
  | inFence, c :: cs =>
    if isFenceLine c then c :: filterHidden (!inFence) cs
    else if inFence && isHiddenLine c then filterHidden inFence cs
    else c :: filterHidden inFence cs

/-! ### Document transformation -/

/-- The text of the freshly generated synchronized region: start-marker
line, a blank separator, the Doc Block, a blank separator, end-marker line,
joined with the requested newline convention (§4.5). -/
def regionText (crlf : Bool) (doc : List Char) : List Char :=
  startMarker ++ nlStr crlf ++ nlStr crlf ++ doc ++ nlStr crlf ++ nlStr crlf ++ endMarker

/-- Modelled from the spec: `transform_readme` (§4.5) of the library, which
is not among the shipped sources.  It resolves the marker configuration of
the document, rewrites crate-relative links in the Doc Block, and replaces
the placeholder line (or everything from the start-marker line to the
end-marker line inclusive) with the regenerated synchronized region,
leaving all other lines untouched. -/
def transform_readme (readme doc crate : List Char) (crlf : Bool) :
    Except ScanError (List Char) :=
  let ls := splitLines readme
  let newRegion := splitLines (regionText crlf (rewriteLinks crate doc))
  match findMarkers ls with
  | .ok (.placeholderOnly i) =>
    .ok (unlines (ls.take i ++ newRegion ++ ls.drop (i + 1)))
  | .ok (.startEnd i j) =>
    .ok (unlines (ls.take i ++ newRegion ++ ls.drop (j + 1)))
  | .error e => .error e

/-- The full pipeline as the program composes it: extract the inner doc
from the entry source, then transform the readme with it (rewriting links
happens inside the transformer). -/
def pipeline (src readme crate : List Char) (showHidden crlf : Bool) :
    Except ScanError (List Char) :=
  transform_readme readme (extract_inner_doc src showHidden crlf) crate crlf

/-! ### CRLF discipline -/

/-- Scans the text remembering whether the previous character was a
carriage return; rejects any newline not directly preceded by one. -/
def crlfScan (prevCr : Bool) : List Char → Bool
  | [] => true
  | c :: rest =>
    if c = '\n' then prevCr && crlfScan false rest
    else crlfScan (c = '\r') rest

/-- Every newline character of the text is immediately preceded by a
carriage return (no bare line feeds). -/
def crlfOnly (s : List Char) : Bool := crlfScan false s

/-- The scanner state after reading a text: whether the character preceding
the next one will be a carriage return (the initial state for an empty
text). -/
def prevCrAfter (p : Bool) : List Char → Bool
  | [] => p
  | c :: rest => prevCrAfter (decide (c = '\r')) rest

/-! ### The command-line dispatch, embedded from `src/src/main.rs` -/

/-- The error value threaded through `read_readme` / `transform_readme` in
`main`: either a failed readme read or a structural scan error. -/
inductive AppError where
  | readFail (msg : List Char)
  | scan (e : ScanError)
deriving DecidableEq

/-- The externally supplied facts `main` consumes: the outcome of
`current_dir`, `Manifest::find_manifest`, `crate_name`, `entry_point`
(carrying the entry source text when found), the `read_readme` result, and
whether the warning callback fired during the transformation. -/
structure Env where
  cwdOk : Bool
  manifestOk : Bool
  crateName : Option (List Char)
  entryText : Option (List Char)
  readmeRead : Except AppError (List Char)
  hadWarnings : Bool

/-- The observable effect of one `main` run: the process exit status,
whether the readme file was created and written, and whether anything was
printed to stderr. -/
structure Outcome where
  exitCode : Nat
  wroteReadme : Bool
  stderrUsed : Bool
deriving DecidableEq

/-- The `read_readme(..).and_then(|readme| transform_readme(..).map(|new|
(readme, new)))` chain of `main` (src/src/main.rs lines 167-170). -/
def transformationOf (rr : Except AppError (List Char)) (doc crate : List Char)
    (crlf : Bool) : Except AppError (List Char × List Char) :=
  match rr with
  | .error e => .error e
  | .ok readme =>
    match transform_readme readme doc crate crlf with
    | .ok nw => .ok (readme, nw)
    | .error e => .error (.scan e)

/-- Embedding of `main` (src/src/main.rs lines 139-207).  The failure of
`current_dir`, `find_manifest`, `crate_name` or `entry_point` prints a
diagnostic and exits with status 1.  Otherwise the transformation result is
dispatched: in check mode an out-of-sync readme exits with status 1 and a
synchronized one falls through normally; outside check mode the new readme
is written and warnings turn the exit status into 2; a transformation error
is printed and `main` falls through to its end, terminating with the
success status. -/
def mainModel (env : Env) (showHidden crlf check : Bool) : Outcome :=
  if env.cwdOk then
    if env.manifestOk then
      match env.crateName with
      | none => ⟨1, false, true⟩
      | some crate =>
        match env.entryText with
        | none => ⟨1, false, true⟩
        | some entry =>
          let doc := extract_inner_doc entry showHidden crlf
          match transformationOf env.readmeRead doc crate crlf with
          | .ok (oldReadme, newReadme) =>
            if check then
              if oldReadme ≠ newReadme then ⟨1, false, true⟩
              else ⟨0, false, env.hadWarnings⟩
            else if env.hadWarnings then ⟨2, true, true⟩
            else ⟨0, true, false⟩
          | .error _ => ⟨0, false, true⟩
    else ⟨1, false, true⟩
  else ⟨1, false, true⟩

/-! ### Lemmas about lines -/

theorem splitLines_ne_nil : ∀ s : List Char, splitLines s ≠ []
  | [] => by simp [splitLines]
  | c :: rest => by
    simp only [splitLines]
    split
    · simp
    · split <;> simp

theorem unlines_cons (l : List Char) (ls : List (List Char)) (h : ls ≠ []) :
    unlines (l :: ls) = l ++ '\n' :: unlines ls := by
  match ls with
  | [] => exact absurd rfl h
  | x :: xs => rfl

theorem unlines_splitLines : ∀ s : List Char, unlines (splitLines s) = s
  | [] => rfl
  | c :: rest => by
    have ih := unlines_splitLines rest
    simp only [splitLines]
    by_cases hc : c = '\n'
    · subst hc
      rw [if_pos rfl, unlines_cons _ _ (splitLines_ne_nil rest), ih]
      rfl
    · rw [if_neg hc]
      cases hsp : splitLines rest with
      | nil => exact absurd hsp (splitLines_ne_nil rest)
      | cons l ls =>
        rw [hsp] at ih
        cases ls with
        | nil => simpa [unlines] using congrArg (c :: ·) ih
        | cons l2 ls2 =>
          rw [unlines_cons _ _ (by simp)] at ih ⊢
          simpa using congrArg (c :: ·) ih

theorem splitLines_append_newline : ∀ a b : List Char,
    splitLines (a ++ '\n' :: b) = splitLines a ++ splitLines b
  | [], b => by simp [splitLines]
  | c :: a, b => by
    have ih := splitLines_append_newline a b
    by_cases hc : c = '\n'
    · subst hc
      simp [splitLines, ih]
    · simp only [List.cons_append, splitLines, List.append_eq, if_neg hc]
      rw [ih]
      cases h : splitLines a with
      | nil => exact absurd h (splitLines_ne_nil a)
      | cons l ls => simp

theorem not_newline_of_mem_splitLines :
    ∀ (s : List Char), ∀ l ∈ splitLines s, '\n' ∉ l
  | [], l, hl => by
    simp only [splitLines, List.mem_singleton] at hl
    subst hl; simp
  | c :: rest, l, hl => by
    have ih := not_newline_of_mem_splitLines rest
    by_cases hc : c = '\n'
    · subst hc
      simp [splitLines] at hl
      rcases hl with rfl | h
      · simp
      · exact ih l h
    · simp only [splitLines, if_neg hc] at hl
      cases hsp : splitLines rest with
      | nil => exact absurd hsp (splitLines_ne_nil rest)
      | cons x xs =>
        rw [hsp] at hl
        have hx : '\n' ∉ x := ih x (by rw [hsp]; exact List.mem_cons_self x xs)
        rcases List.mem_cons.mp hl with rfl | h
        · intro hmem
          rcases List.mem_cons.mp hmem with h' | h'
          · exact hc h'.symm
          · exact hx h'
        · exact ih l (by rw [hsp]; exact List.mem_cons_of_mem x h)

theorem splitLines_of_not_newline (s : List Char) (h : '\n' ∉ s) :
    splitLines s = [s] := by
  induction s with
  | nil => rfl
  | cons c rest ih =>
    have hc : c ≠ '\n' := fun hh => h (by simp [hh])
    have hr : '\n' ∉ rest := fun hh => h (by simp [hh])
    simp only [splitLines, if_neg hc, ih hr]

theorem splitLines_unlines :
    ∀ L : List (List Char), L ≠ [] → (∀ l ∈ L, '\n' ∉ l) →
      splitLines (unlines L) = L
  | [], h, _ => absurd rfl h
  | [l], _, h => by
    simpa [unlines] using splitLines_of_not_newline l (h l (by simp))
  | l :: x :: xs, _, h => by
    rw [unlines_cons _ _ (by simp), splitLines_append_newline,
      splitLines_of_not_newline l (h l (by simp)),
      splitLines_unlines (x :: xs) (by simp) (fun a ha => h a (by simp [ha]))]
    rfl

theorem unlines_append_right (A B : List (List Char)) (hB : B ≠ []) :
    unlines (A ++ B) = joinL A ++ unlines B := by
  induction A with
  | nil => simp [joinL]
  | cons a A' ih =>
    have hAB : A' ++ B ≠ [] := by
      intro hh
      exact hB (List.append_eq_nil.mp hh).2
    rw [List.cons_append, unlines_cons _ _ hAB, ih]
    cases hA' : A' with
    | nil => simp [hA', joinL, unlines]
    | cons x xs =>
      subst hA'
      simp [joinL, unlines_cons, List.append_assoc]

theorem unlines_append_left (A B : List (List Char)) (hA : A ≠ []) :
    unlines (A ++ B) = unlines A ++ joinR B := by
  cases hB : B with
  | nil => simp [joinR]
  | cons x xs =>
    rw [← hB, unlines_append_right A B (by simp [hB]), joinL, if_neg hA, joinR,
      if_neg (by simp [hB])]
    simp

theorem unlines_decomp (A M B : List (List Char)) (hM : M ≠ []) :
    unlines (A ++ M ++ B) = joinL A ++ unlines M ++ joinR B := by
  rw [List.append_assoc, unlines_append_right A (M ++ B)
    (by intro hh; exact hM (List.append_eq_nil.mp hh).1),
    unlines_append_left M B hM, List.append_assoc]

/-! ### Lemmas about trim -/

theorem dropWhile_append_singleton (p : Char → Bool) (l : List Char) (c : Char)
    (hc : p c = true) :
    (l ++ [c]).dropWhile p =
      if l.dropWhile p = [] then [] else l.dropWhile p ++ [c] := by
  induction l with
  | nil => simp [List.dropWhile_cons, hc]
  | cons a as ih =>
    cases ha : p a with
    | true => simpa [List.dropWhile_cons, ha] using ih
    | false => simp [List.dropWhile_cons, ha]

theorem trim_append_cr (l : List Char) : trim (l ++ ['\r']) = trim l := by
  unfold trim
  rw [dropWhile_append_singleton Char.isWhitespace l '\r' (by decide)]
  by_cases h : l.dropWhile Char.isWhitespace = []
  · simp [h]
  · rw [if_neg h, List.reverse_append]
    have hws : Char.isWhitespace '\r' = true := by decide
    simp [List.dropWhile_cons, hws]

/-! ### Lemmas about idxWhere -/

theorem idxWhere_nil_iff {α : Type} (p : α → Bool) (L : List α) :
    idxWhere p L = [] ↔ ∀ a ∈ L, p a = false := by
  induction L with
  | nil => simp [idxWhere]
  | cons a as ih =>
    cases hp : p a with
    | true => simp [idxWhere, hp]
    | false => simp [idxWhere, hp, ih]

theorem map_add_map_add (xs : List Nat) (m n : Nat) :
    (xs.map (· + m)).map (· + n) = xs.map (· + (m + n)) := by
  rw [List.map_map]
  apply List.map_congr_left
  intro a _
  simp [Function.comp, Nat.add_assoc]

theorem idxWhere_append {α : Type} (p : α → Bool) :
    ∀ A B : List α,
      idxWhere p (A ++ B) = idxWhere p A ++ (idxWhere p B).map (· + A.length)
  | [], B => by simp [idxWhere]
  | a :: A, B => by
    have ih := idxWhere_append p A B
    cases hp : p a with
    | true => simp [idxWhere, hp, ih, map_add_map_add, Nat.add_comm]
    | false => simp [idxWhere, hp, ih, map_add_map_add, Nat.add_comm]

theorem mem_idxWhere_lt {α : Type} (p : α → Bool) :
    ∀ (L : List α) (k : Nat), k ∈ idxWhere p L → k < L.length
  | [], k, h => by simp [idxWhere] at h
  | a :: as, k, h => by
    cases hp : p a <;> simp only [idxWhere, hp, Bool.false_eq_true, if_false,
      if_true] at h
    · rcases List.mem_map.mp h with ⟨x, hx, rfl⟩
      have := mem_idxWhere_lt p as x hx
      simp only [List.length_cons]
      omega
    · rcases List.mem_cons.mp h with rfl | h
      · simp
      · rcases List.mem_map.mp h with ⟨x, hx, rfl⟩
        have := mem_idxWhere_lt p as x hx
        simp only [List.length_cons]
        omega

theorem map_add_eq_singleton {xs : List Nat} {n k : Nat}
    (h : xs.map (· + n) = [k]) : ∃ x, xs = [x] ∧ k = x + n := by
  cases xs with
  | nil => simp at h
  | cons y ys =>
    simp only [List.map_cons, List.cons.injEq] at h
    obtain ⟨h1, h2⟩ := h
    have h3 : ys = [] := by
      cases ys with
      | nil => rfl
      | cons z zs => simp at h2
    subst h3
    exact ⟨y, rfl, h1.symm⟩

theorem idxWhere_cons_eq_zero {α : Type} {p : α → Bool} {x : α} {Y : List α}
    (h : idxWhere p (x :: Y) = [0]) : p x = true ∧ idxWhere p Y = [] := by
  cases hp : p x <;> simp only [idxWhere, hp, Bool.false_eq_true, if_false,
    if_true] at h
  · obtain ⟨z, _, hz0⟩ := map_add_eq_singleton h
    omega
  · simp only [List.cons.injEq] at h
    obtain ⟨-, h2⟩ := h
    refine ⟨rfl, ?_⟩
    have h3 := congrArg List.length h2
    simp only [List.length_map, List.length_nil] at h3
    exact List.eq_nil_of_length_eq_zero h3

theorem idxWhere_eq_singleton_parts {α : Type} {p : α → Bool} {L : List α}
    {i : Nat} (h : idxWhere p L = [i]) :
    i < L.length ∧ idxWhere p (L.take i) = [] ∧
      idxWhere p (L.drop (i + 1)) = [] := by
  have hi : i < L.length := mem_idxWhere_lt p L i (by rw [h]; simp)
  have hlen : (L.take i).length = i := by
    simp only [List.length_take]
    omega
  have happ : idxWhere p L =
      idxWhere p (L.take i) ++ (idxWhere p (L.drop i)).map (· + i) := by
    conv_lhs => rw [← List.take_append_drop i L]
    rw [idxWhere_append, hlen]
  rw [h] at happ
  cases htk : idxWhere p (L.take i) with
  | cons u us =>
    exfalso
    have hu : u ∈ idxWhere p (L.take i) := by rw [htk]; simp
    have hult : u < i := by
      have := mem_idxWhere_lt p _ u hu
      rwa [hlen] at this
    rw [htk] at happ
    have : i = u := by
      have hh := congrArg List.head? happ
      simpa using hh
    omega
  | nil =>
    rw [htk, List.nil_append] at happ
    obtain ⟨z, hz, hz0⟩ := map_add_eq_singleton happ.symm
    have hz' : z = 0 := by omega
    subst hz'
    rw [List.drop_eq_getElem_cons hi] at hz
    obtain ⟨-, h2⟩ := idxWhere_cons_eq_zero hz
    exact ⟨hi, rfl, h2⟩

/-! ### Lines gaining a trailing character -/

theorem splitLines_newline_cons (s : List Char) :
    splitLines ('\n' :: s) = [] :: splitLines s := by
  simp [splitLines]

theorem splitLines_append_char (c : Char) (hc : c ≠ '\n') :
    ∀ x : List Char, splitLines (x ++ [c]) = appendLast c (splitLines x)
  | [] => by simp [splitLines, if_neg hc, appendLast]
  | a :: x' => by
    have ih := splitLines_append_char c hc x'
    by_cases ha : a = '\n'
    · subst ha
      rw [List.cons_append, splitLines_newline_cons, splitLines_newline_cons, ih]
      cases hsp : splitLines x' with
      | nil => exact absurd hsp (splitLines_ne_nil x')
      | cons l ls => simp [appendLast]
    · rw [List.cons_append]
      simp only [splitLines, if_neg ha]
      rw [ih]
      cases hsp : splitLines x' with
      | nil => exact absurd hsp (splitLines_ne_nil x')
      | cons l0 ls0 =>
        cases ls0 with
        | nil => simp [appendLast]
        | cons y ys => simp [appendLast]

theorem map_trim_appendLast_cr :
    ∀ L : List (List Char), (appendLast '\r' L).map trim = L.map trim
  | [] => rfl
  | [l] => by simp [appendLast, trim_append_cr]
  | l :: x :: xs => by
    have ih := map_trim_appendLast_cr (x :: xs)
    simp only [appendLast, List.map_cons] at ih ⊢
    rw [ih]

theorem idxWhere_eq_of_map_eq {α β : Type} (f : α → β) (q : β → Bool) :
    ∀ {L1 L2 : List α}, L1.map f = L2.map f →
      idxWhere (fun a => q (f a)) L1 = idxWhere (fun a => q (f a)) L2
  | [], [], _ => rfl
  | [], b :: bs, h => by simp at h
  | a :: as, [], h => by simp at h
  | a :: as, b :: bs, h => by
    simp only [List.map_cons, List.cons.injEq] at h
    obtain ⟨h1, h2⟩ := h
    simp only [idxWhere, h1, idxWhere_eq_of_map_eq f q h2]

/-! ### Marker-line evaluation facts -/

theorem isStartLine_startMarker : isStartLine startMarker = true := by decide

theorem isEndLine_endMarker : isEndLine endMarker = true := by decide

theorem marker_line_matrix :
    isEndLine startMarker = false ∧ isPlaceholderLine startMarker = false ∧
    isStartLine endMarker = false ∧ isPlaceholderLine endMarker = false ∧
    isStartLine placeholderMarker = false ∧ isEndLine placeholderMarker = false ∧
    isStartLine ([] : List Char) = false ∧ isEndLine ([] : List Char) = false ∧
    isPlaceholderLine ([] : List Char) = false ∧
    isStartLine ['\r'] = false ∧ isEndLine ['\r'] = false ∧
    isPlaceholderLine ['\r'] = false := by decide

theorem isStartLine_append_cr (l : List Char) :
    isStartLine (l ++ ['\r']) = isStartLine l := by
  simp [isStartLine, trim_append_cr]

theorem isEndLine_append_cr (l : List Char) :
    isEndLine (l ++ ['\r']) = isEndLine l := by
  simp [isEndLine, trim_append_cr]

/-! ### Characterization of the marker scanner -/

theorem findMarkers_placeholder_intro {ls : List (List Char)} {i : Nat}
    (hp : idxWhere isPlaceholderLine ls = [i])
    (hs : idxWhere isStartLine ls = [])
    (he : idxWhere isEndLine ls = []) :
    findMarkers ls = .ok (.placeholderOnly i) := by
  simp [findMarkers, hp, hs, he]

theorem findMarkers_startEnd_intro {ls : List (List Char)} {i j : Nat}
    (hs : idxWhere isStartLine ls = [i])
    (he : idxWhere isEndLine ls = [j]) (hij : i < j)
    (hp : (idxWhere isPlaceholderLine ls).length ≤ 1) :
    findMarkers ls = .ok (.startEnd i j) := by
  have h2 : ¬ 2 ≤ (idxWhere isPlaceholderLine ls).length := by omega
  simp [findMarkers, hs, he, hij, h2]

theorem findMarkers_ok_inv {ls : List (List Char)} {cfg : MarkerCfg}
    (h : findMarkers ls = .ok cfg) :
    ((∃ i, cfg = .placeholderOnly i ∧ idxWhere isPlaceholderLine ls = [i]) ∧
      idxWhere isStartLine ls = [] ∧ idxWhere isEndLine ls = []) ∨
    (∃ i j, cfg = .startEnd i j ∧ idxWhere isStartLine ls = [i] ∧
      idxWhere isEndLine ls = [j] ∧ i < j ∧
      (idxWhere isPlaceholderLine ls).length ≤ 1) := by
  simp only [findMarkers] at h
  by_cases h2 : 2 ≤ (idxWhere isPlaceholderLine ls).length
  · rw [if_pos h2] at h
    cases h
  · rw [if_neg h2] at h
    cases hss : idxWhere isStartLine ls with
    | nil =>
      cases hes : idxWhere isEndLine ls with
      | nil =>
        rw [hss, hes] at h
        cases hps : idxWhere isPlaceholderLine ls with
        | nil => rw [hps] at h; cases h
        | cons x xs =>
          cases xs with
          | nil =>
            rw [hps] at h
            cases h
            exact Or.inl ⟨⟨x, rfl, rfl⟩, rfl, rfl⟩
          | cons y ys => rw [hps] at h; cases h
      | cons e es' => rw [hss, hes] at h; cases h
    | cons s ss' =>
      cases ss' with
      | nil =>
        cases hes : idxWhere isEndLine ls with
        | nil => rw [hss, hes] at h; cases h
        | cons e es' =>
          cases es' with
          | nil =>
            rw [hss, hes] at h
            have h' : (if s < e then Except.ok (MarkerCfg.startEnd s e)
                else Except.error ScanError.mismatchedMarkers) = Except.ok cfg := h
            by_cases hlt : s < e
            · rw [if_pos hlt] at h'
              cases h'
              exact Or.inr ⟨s, e, rfl, rfl, rfl, hlt, by omega⟩
            · rw [if_neg hlt] at h'; cases h'
          | cons => rw [hss, hes] at h; cases h
      | cons t ts =>
        rw [hss] at h
        cases hes : idxWhere isEndLine ls <;> rw [hes] at h <;> cases h

theorem findMarkers_error_of_not_ok {ls : List (List Char)}
    (h : ∀ cfg, findMarkers ls ≠ .ok cfg) :
    ∃ e, findMarkers ls = .error e := by
  cases hf : findMarkers ls with
  | ok cfg => exact absurd hf (h cfg)
  | error e => exact ⟨e, rfl⟩

/-! ### Characterization of the transformer -/

theorem transform_eq_placeholder {readme doc crate : List Char} {crlf : Bool}
    {i : Nat} (h : findMarkers (splitLines readme) = .ok (.placeholderOnly i)) :
    transform_readme readme doc crate crlf =
      .ok (unlines ((splitLines readme).take i ++
        splitLines (regionText crlf (rewriteLinks crate doc)) ++
        (splitLines readme).drop (i + 1))) := by
  simp only [transform_readme, h]

theorem transform_eq_startEnd {readme doc crate : List Char} {crlf : Bool}
    {i j : Nat} (h : findMarkers (splitLines readme) = .ok (.startEnd i j)) :
    transform_readme readme doc crate crlf =
      .ok (unlines ((splitLines readme).take i ++
        splitLines (regionText crlf (rewriteLinks crate doc)) ++
        (splitLines readme).drop (j + 1))) := by
  simp only [transform_readme, h]

theorem transform_eq_error {readme doc crate : List Char} {crlf : Bool}
    {e : ScanError} (h : findMarkers (splitLines readme) = .error e) :
    transform_readme readme doc crate crlf = .error e := by
  simp only [transform_readme, h]

theorem transform_ok_inv {readme doc crate : List Char} {crlf : Bool}
    {out : List Char} (h : transform_readme readme doc crate crlf = .ok out) :
    ∃ cfg, findMarkers (splitLines readme) = .ok cfg := by
  cases hf : findMarkers (splitLines readme) with
  | ok cfg => exact ⟨cfg, rfl⟩
  | error e => rw [transform_eq_error hf] at h; cases h

/-! ### The lines of a freshly generated region -/

theorem splitLines_regionText_lf (d : List Char) :
    splitLines (regionText false d) =
      [startMarker, []] ++ splitLines d ++ [[], endMarker] := by
  have h1 : regionText false d =
      startMarker ++ '\n' :: ('\n' :: (d ++ '\n' :: ('\n' :: endMarker))) := by
    simp [regionText, nlStr]
  rw [h1, splitLines_append_newline, splitLines_newline_cons,
    splitLines_append_newline, splitLines_newline_cons,
    splitLines_of_not_newline startMarker (by decide),
    splitLines_of_not_newline endMarker (by decide)]
  simp

theorem splitLines_regionText_crlf (d : List Char) :
    splitLines (regionText true d) =
      [startMarker ++ ['\r'], ['\r']] ++ appendLast '\r' (splitLines d) ++
        [['\r'], endMarker] := by
  have h1 : regionText true d =
      (startMarker ++ ['\r']) ++ '\n' :: (['\r'] ++ '\n' ::
        ((d ++ ['\r']) ++ '\n' :: (['\r'] ++ '\n' :: endMarker))) := by
    simp [regionText, nlStr]
  rw [h1, splitLines_append_newline, splitLines_append_newline,
    splitLines_append_newline, splitLines_append_newline,
    splitLines_of_not_newline (startMarker ++ ['\r']) (by decide),
    splitLines_of_not_newline ['\r'] (by decide),
    splitLines_of_not_newline endMarker (by decide),
    splitLines_append_char '\r' (by decide) d]
  simp

/-! ### Scanning a freshly generated region -/

theorem length_appendLast (c : Char) :
    ∀ L : List (List Char), (appendLast c L).length = L.length
  | [] => rfl
  | [l] => rfl
  | l :: x :: xs => by
    have := length_appendLast c (x :: xs)
    simp only [appendLast, List.length_cons] at this ⊢
    omega

theorem idxWhere_appendLast_cr (m : List Char) (L : List (List Char)) :
    idxWhere (fun l => trim l == m) (appendLast '\r' L) =
      idxWhere (fun l => trim l == m) L :=
  idxWhere_eq_of_map_eq trim (· == m) (map_trim_appendLast_cr L)

theorem region_scan_start (crlf : Bool) (d' : List Char)
    (hS : ∀ l ∈ splitLines d', isStartLine l = false) :
    idxWhere isStartLine (splitLines (regionText crlf d')) = [0] := by
  have hS' : idxWhere isStartLine (splitLines d') = [] :=
    (idxWhere_nil_iff _ _).mpr hS
  cases crlf
  · rw [splitLines_regionText_lf, idxWhere_append, idxWhere_append, hS',
      show idxWhere isStartLine [startMarker, []] = [0] from by decide,
      show idxWhere isStartLine [[], endMarker] = [] from by decide]
    simp
  · have hSM : idxWhere isStartLine (appendLast '\r' (splitLines d')) = [] := by
      rw [show isStartLine = fun l => trim l == startMarker from rfl] at hS' ⊢
      rw [idxWhere_appendLast_cr startMarker (splitLines d'), hS']
    rw [splitLines_regionText_crlf, idxWhere_append, idxWhere_append, hSM,
      show idxWhere isStartLine [startMarker ++ ['\r'], ['\r']] = [0] from by decide,
      show idxWhere isStartLine [['\r'], endMarker] = [] from by decide]
    simp

theorem region_scan_end (crlf : Bool) (d' : List Char)
    (hE : ∀ l ∈ splitLines d', isEndLine l = false) :
    idxWhere isEndLine (splitLines (regionText crlf d')) =
      [(splitLines d').length + 3] := by
  have hE' : idxWhere isEndLine (splitLines d') = [] :=
    (idxWhere_nil_iff _ _).mpr hE
  cases crlf
  · rw [splitLines_regionText_lf, idxWhere_append, idxWhere_append, hE',
      show idxWhere isEndLine [startMarker, []] = [] from by decide,
      show idxWhere isEndLine [[], endMarker] = [1] from by decide]
    simp
    omega
  · have hEM : idxWhere isEndLine (appendLast '\r' (splitLines d')) = [] := by
      rw [show isEndLine = fun l => trim l == endMarker from rfl] at hE' ⊢
      rw [idxWhere_appendLast_cr endMarker (splitLines d'), hE']
    have hL : (appendLast '\r' (splitLines d')).length = (splitLines d').length :=
      length_appendLast '\r' (splitLines d')
    rw [splitLines_regionText_crlf, idxWhere_append, idxWhere_append, hEM,
      show idxWhere isEndLine [startMarker ++ ['\r'], ['\r']] = [] from by decide,
      show idxWhere isEndLine [['\r'], endMarker] = [1] from by decide]
    simp [hL]
    omega

theorem region_scan_ph (crlf : Bool) (d' : List Char)
    (hP : ∀ l ∈ splitLines d', isPlaceholderLine l = false) :
    idxWhere isPlaceholderLine (splitLines (regionText crlf d')) = [] := by
  have hP' : idxWhere isPlaceholderLine (splitLines d') = [] :=
    (idxWhere_nil_iff _ _).mpr hP
  cases crlf
  · rw [splitLines_regionText_lf, idxWhere_append, idxWhere_append, hP',
      show idxWhere isPlaceholderLine [startMarker, []] = [] from by decide,
      show idxWhere isPlaceholderLine [[], endMarker] = [] from by decide]
    simp
  · have hPM : idxWhere isPlaceholderLine (appendLast '\r' (splitLines d')) = [] := by
      rw [show isPlaceholderLine = fun l => trim l == placeholderMarker from rfl] at hP' ⊢
      rw [idxWhere_appendLast_cr placeholderMarker (splitLines d'), hP']
    rw [splitLines_regionText_crlf, idxWhere_append, idxWhere_append, hPM,
      show idxWhere isPlaceholderLine [startMarker ++ ['\r'], ['\r']] = [] from by decide,
      show idxWhere isPlaceholderLine [['\r'], endMarker] = [] from by decide]
    simp

theorem region_scan_len (crlf : Bool) (d' : List Char) :
    (splitLines (regionText crlf d')).length = (splitLines d').length + 4 := by
  cases crlf
  · rw [splitLines_regionText_lf]
    simp
    try omega
  · have hL : (appendLast '\r' (splitLines d')).length = (splitLines d').length :=
      length_appendLast '\r' (splitLines d')
    rw [splitLines_regionText_crlf]
    simp [hL]
    try omega

/-! ### The transformer on a document whose region is already fresh -/

theorem transform_fixpoint (doc crate : List Char) (crlf : Bool)
    (pre suf : List (List Char))
    (hpreN : ∀ l ∈ pre, '\n' ∉ l) (hsufN : ∀ l ∈ suf, '\n' ∉ l)
    (hpreS : ∀ l ∈ pre, isStartLine l = false)
    (hsufS : ∀ l ∈ suf, isStartLine l = false)
    (hpreE : ∀ l ∈ pre, isEndLine l = false)
    (hsufE : ∀ l ∈ suf, isEndLine l = false)
    (hph : (idxWhere isPlaceholderLine pre).length +
      (idxWhere isPlaceholderLine suf).length ≤ 1)
    (hdS : ∀ l ∈ splitLines (rewriteLinks crate doc), isStartLine l = false)
    (hdE : ∀ l ∈ splitLines (rewriteLinks crate doc), isEndLine l = false)
    (hdP : ∀ l ∈ splitLines (rewriteLinks crate doc), isPlaceholderLine l = false) :
    transform_readme
      (unlines (pre ++ splitLines (regionText crlf (rewriteLinks crate doc)) ++ suf))
      doc crate crlf =
    .ok (unlines (pre ++ splitLines (regionText crlf (rewriteLinks crate doc)) ++ suf)) := by
  have r0 := region_scan_start crlf (rewriteLinks crate doc) hdS
  have rEnd := region_scan_end crlf (rewriteLinks crate doc) hdE
  have rPh := region_scan_ph crlf (rewriteLinks crate doc) hdP
  have rLen := region_scan_len crlf (rewriteLinks crate doc)
  set d' := rewriteLinks crate doc with hd'
  set R := splitLines (regionText crlf d') with hRdef
  have hRN : ∀ l ∈ R, '\n' ∉ l := fun l hl => not_newline_of_mem_splitLines _ l hl
  have hsplit : splitLines (unlines (pre ++ R ++ suf)) = pre ++ R ++ suf := by
    apply splitLines_unlines
    · intro hh
      rcases List.append_eq_nil.mp hh with ⟨h1, h2⟩
      exact splitLines_ne_nil _ (List.append_eq_nil.mp h1).2
    · intro l hl
      rcases List.mem_append.mp hl with hl1 | hl2
      · rcases List.mem_append.mp hl1 with hl3 | hl4
        · exact hpreN l hl3
        · exact hRN l hl4
      · exact hsufN l hl2
  have hScanS : idxWhere isStartLine (pre ++ R ++ suf) = [pre.length] := by
    rw [List.append_assoc, idxWhere_append, idxWhere_append, r0,
      (idxWhere_nil_iff _ _).mpr hpreS, (idxWhere_nil_iff _ _).mpr hsufS]
    simp
  have hScanE : idxWhere isEndLine (pre ++ R ++ suf) =
      [pre.length + ((splitLines d').length + 3)] := by
    rw [List.append_assoc, idxWhere_append, idxWhere_append, rEnd,
      (idxWhere_nil_iff _ _).mpr hpreE, (idxWhere_nil_iff _ _).mpr hsufE]
    simp
    omega
  have hScanP : (idxWhere isPlaceholderLine (pre ++ R ++ suf)).length ≤ 1 := by
    rw [List.append_assoc, idxWhere_append, idxWhere_append, rPh]
    simp
    omega
  have hfm : findMarkers (splitLines (unlines (pre ++ R ++ suf))) =
      .ok (.startEnd pre.length (pre.length + ((splitLines d').length + 3))) := by
    rw [hsplit]
    exact findMarkers_startEnd_intro hScanS hScanE (by omega) hScanP
  rw [transform_eq_startEnd hfm, hsplit]
  congr 1
  have htake : (pre ++ R ++ suf).take pre.length = pre := by
    rw [List.append_assoc]
    exact List.take_left pre (R ++ suf)
  have hdrop : (pre ++ R ++ suf).drop
      (pre.length + ((splitLines d').length + 3) + 1) = suf := by
    have hlen2 : pre.length + ((splitLines d').length + 3) + 1 =
        (pre ++ R).length := by
      simp [rLen]
      omega
    rw [hlen2]
    exact List.drop_left (pre ++ R) suf
  rw [htake, hdrop]

/-! ### The shape of every successful transformation -/

theorem transform_shape {readme doc crate : List Char} {crlf : Bool}
    {out : List Char} (h : transform_readme readme doc crate crlf = .ok out) :
    ∃ pre mid suf, splitLines readme = pre ++ mid ++ suf ∧ mid ≠ [] ∧
      out = unlines (pre ++
        splitLines (regionText crlf (rewriteLinks crate doc)) ++ suf) := by
  obtain ⟨cfg, hcfg⟩ := transform_ok_inv h
  rcases findMarkers_ok_inv hcfg with
    ⟨⟨i, rfl, hps⟩, hss, hes⟩ | ⟨i, j, rfl, hss, hes, hij, hple⟩
  · obtain ⟨hi, -, -⟩ := idxWhere_eq_singleton_parts hps
    refine ⟨(splitLines readme).take i, [(splitLines readme).get ⟨i, hi⟩],
      (splitLines readme).drop (i + 1), ?_, by simp, ?_⟩
    · conv_lhs => rw [← List.take_append_drop i (splitLines readme),
        List.drop_eq_getElem_cons hi]
      simp
    · rw [transform_eq_placeholder hcfg] at h
      injection h with h2
      exact h2.symm
  · have hiLt : i < (splitLines readme).length :=
      mem_idxWhere_lt _ _ i (by rw [hss]; simp)
    refine ⟨(splitLines readme).take i,
      ((splitLines readme).drop i).take (j + 1 - i),
      (splitLines readme).drop (j + 1), ?_, ?_, ?_⟩
    · conv_lhs => rw [← List.take_append_drop i (splitLines readme)]
      rw [List.append_assoc]
      congr 1
      conv_lhs => rw [← List.take_append_drop (j + 1 - i)
        ((splitLines readme).drop i)]
      congr 1
      rw [List.drop_drop]
      congr 1
      omega
    · intro hh
      have hlen := congrArg List.length hh
      simp [List.length_take, List.length_drop] at hlen
      omega
    · rw [transform_eq_startEnd hcfg] at h
      injection h with h2
      exact h2.symm

/-! ### Claim C1: idempotence of the full pipeline -/

/-- C1, counterexample to the claim as stated: when the Doc Block itself
contains an end-marker line, the first pipeline run succeeds but the second
run on its own output fails with a structural error instead of reproducing
the output, so the unconditional idempotence claim is false. -/
theorem c1_counterexample :
    pipeline "//! <!-- cargo-sync-readme end -->".data
        "<!-- cargo-sync-readme -->".data "mycrate".data false false =
      .ok ("<!-- cargo-sync-readme start -->\n\n<!-- cargo-sync-readme end -->\n\n<!-- cargo-sync-readme end -->".data) ∧
    pipeline "//! <!-- cargo-sync-readme end -->".data
        "<!-- cargo-sync-readme start -->\n\n<!-- cargo-sync-readme end -->\n\n<!-- cargo-sync-readme end -->".data
        "mycrate".data false false ≠
      .ok ("<!-- cargo-sync-readme start -->\n\n<!-- cargo-sync-readme end -->\n\n<!-- cargo-sync-readme end -->".data) := by
  constructor
  · rfl
  · decide

/-- C1 (amended): the extract-transform-splice pipeline is idempotent
provided no line of the (link-rewritten) Doc Block is itself a marker line:
if a first run on any document succeeds, a second run with the first run's
output as the document, the same entry source and the same flags, returns
exactly the first run's output. -/
theorem c1_idempotent_amended (src readme crate : List Char) (sh crlf : Bool)
    (out : List Char)
    (hok : pipeline src readme crate sh crlf = .ok out)
    (hclean : ∀ l ∈ splitLines (rewriteLinks crate (extract_inner_doc src sh crlf)),
      isStartLine l = false ∧ isEndLine l = false ∧ isPlaceholderLine l = false) :
    pipeline src out crate sh crlf = .ok out := by
  unfold pipeline at hok ⊢
  have hdS : ∀ l ∈ splitLines (rewriteLinks crate (extract_inner_doc src sh crlf)),
      isStartLine l = false := fun l hl => (hclean l hl).1
  have hdE : ∀ l ∈ splitLines (rewriteLinks crate (extract_inner_doc src sh crlf)),
      isEndLine l = false := fun l hl => (hclean l hl).2.1
  have hdP : ∀ l ∈ splitLines (rewriteLinks crate (extract_inner_doc src sh crlf)),
      isPlaceholderLine l = false := fun l hl => (hclean l hl).2.2
  obtain ⟨cfg, hcfg⟩ := transform_ok_inv hok
  rcases findMarkers_ok_inv hcfg with
    ⟨⟨i, rfl, hps⟩, hss, hes⟩ | ⟨i, j, rfl, hss, hes, hij, hple⟩
  · rw [transform_eq_placeholder hcfg] at hok
    injection hok with hout
    obtain ⟨hi, hpsTake, hpsDrop⟩ := idxWhere_eq_singleton_parts hps
    have hSfull : ∀ l ∈ splitLines readme, isStartLine l = false :=
      (idxWhere_nil_iff _ _).mp hss
    have hEfull : ∀ l ∈ splitLines readme, isEndLine l = false :=
      (idxWhere_nil_iff _ _).mp hes
    rw [← hout]
    exact transform_fixpoint _ crate crlf _ _
      (fun l hl => not_newline_of_mem_splitLines readme l (List.take_subset _ _ hl))
      (fun l hl => not_newline_of_mem_splitLines readme l (List.drop_subset _ _ hl))
      (fun l hl => hSfull l (List.take_subset _ _ hl))
      (fun l hl => hSfull l (List.drop_subset _ _ hl))
      (fun l hl => hEfull l (List.take_subset _ _ hl))
      (fun l hl => hEfull l (List.drop_subset _ _ hl))
      (by simp [hpsTake, hpsDrop]) hdS hdE hdP
  · rw [transform_eq_startEnd hcfg] at hok
    injection hok with hout
    obtain ⟨hiLt, hssTake, hssDrop⟩ := idxWhere_eq_singleton_parts hss
    obtain ⟨hjLt, hesTake, hesDrop⟩ := idxWhere_eq_singleton_parts hes
    have hSpre : ∀ l ∈ (splitLines readme).take i, isStartLine l = false :=
      (idxWhere_nil_iff _ _).mp hssTake
    have hEpre : ∀ l ∈ (splitLines readme).take i, isEndLine l = false := by
      intro l hl
      apply (idxWhere_nil_iff _ _).mp hesTake
      have hti : (splitLines readme).take i = ((splitLines readme).take j).take i := by
        rw [List.take_take, Nat.min_eq_left (by omega)]
      rw [hti] at hl
      exact List.take_subset _ _ hl
    have hSsuf : ∀ l ∈ (splitLines readme).drop (j + 1), isStartLine l = false := by
      intro l hl
      apply (idxWhere_nil_iff _ _).mp hssDrop
      have hdj : (splitLines readme).drop (j + 1) =
          ((splitLines readme).drop (i + 1)).drop (j - i) := by
        rw [List.drop_drop]
        congr 1
        omega
      rw [hdj] at hl
      exact List.drop_subset _ _ hl
    have hEsuf : ∀ l ∈ (splitLines readme).drop (j + 1), isEndLine l = false :=
      (idxWhere_nil_iff _ _).mp hesDrop
    have hph2 : (idxWhere isPlaceholderLine ((splitLines readme).take i)).length +
        (idxWhere isPlaceholderLine ((splitLines readme).drop (j + 1))).length ≤ 1 := by
      have hdec : splitLines readme = (splitLines readme).take i ++
          (((splitLines readme).drop i).take (j + 1 - i) ++
            (splitLines readme).drop (j + 1)) := by
        conv_lhs => rw [← List.take_append_drop i (splitLines readme)]
        congr 1
        conv_lhs => rw [← List.take_append_drop (j + 1 - i)
          ((splitLines readme).drop i)]
        congr 1
        rw [List.drop_drop]
        congr 1
        omega
      have hlenEq := congrArg
        (fun L => (idxWhere isPlaceholderLine L).length) hdec
      simp only [idxWhere_append, List.length_append, List.length_map] at hlenEq
      omega
    rw [← hout]
    exact transform_fixpoint _ crate crlf _ _
      (fun l hl => not_newline_of_mem_splitLines readme l (List.take_subset _ _ hl))
      (fun l hl => not_newline_of_mem_splitLines readme l (List.drop_subset _ _ hl))
      hSpre hSsuf hEpre hEsuf hph2 hdS hdE hdP

/-! ### Claim C2: frame property of the Document Transformer -/

/-- C2: whenever the marker positions of a document resolve successfully,
the input document is partitioned into prefix bytes, a replaced middle and
suffix bytes, and the output document consists of exactly the same prefix
bytes, the freshly generated synchronized region, and the same suffix
bytes — only the synchronized region changes. -/
theorem c2_frame (readme doc crate : List Char) (crlf : Bool) (out : List Char)
    (h : transform_readme readme doc crate crlf = .ok out) :
    ∃ preB oldB sufB, readme = preB ++ oldB ++ sufB ∧
      out = preB ++ regionText crlf (rewriteLinks crate doc) ++ sufB := by
  obtain ⟨pre, mid, suf, hdec, hmid, hout⟩ := transform_shape h
  refine ⟨joinL pre, unlines mid, joinR suf, ?_, ?_⟩
  · conv_lhs => rw [← unlines_splitLines readme]
    rw [hdec, unlines_decomp _ _ _ hmid]
  · rw [hout, unlines_decomp _ _ _ (splitLines_ne_nil _), unlines_splitLines]

/-- C2 witness: the frame theorem applied to a concrete document whose
placeholder sits between two text lines. -/
theorem c2_frame_witness :
    ∃ preB oldB sufB,
      "A\n<!-- cargo-sync-readme -->\nB".data = preB ++ oldB ++ sufB ∧
      "A\n<!-- cargo-sync-readme start -->\n\ndoc\n\n<!-- cargo-sync-readme end -->\nB".data =
        preB ++ regionText false (rewriteLinks "mycrate".data "doc".data) ++ sufB :=
  c2_frame "A\n<!-- cargo-sync-readme -->\nB".data "doc".data "mycrate".data
    false _ rfl

/-! ### Claim C3: marker round-trip -/

/-- C3, counterexample to the claim as stated: with a Doc Block consisting
of an end-marker line, the transformed output of a placeholder-only
document contains two end-marker lines, not exactly one. -/
theorem c3_counterexample :
    transform_readme "<!-- cargo-sync-readme -->".data
        "<!-- cargo-sync-readme end -->".data "mycrate".data false =
      .ok "<!-- cargo-sync-readme start -->\n\n<!-- cargo-sync-readme end -->\n\n<!-- cargo-sync-readme end -->".data ∧
    (idxWhere isEndLine (splitLines
      "<!-- cargo-sync-readme start -->\n\n<!-- cargo-sync-readme end -->\n\n<!-- cargo-sync-readme end -->".data)).length = 2 :=
  ⟨rfl, by decide⟩

/-- C3 (amended): for a document containing exactly one placeholder line
and no start/end-marker lines, and a non-empty Doc Block none of whose
link-rewritten lines is a start- or end-marker line, the transformation
succeeds, the output's lines are exactly the unchanged lines before the
placeholder, the fresh region lines, and the unchanged lines after it, and
the output contains exactly one start-marker line and exactly one
end-marker line (at the region's edges). -/
theorem c3_roundtrip (readme doc crate : List Char) (crlf : Bool) (i : Nat)
    (hps : idxWhere isPlaceholderLine (splitLines readme) = [i])
    (hss : idxWhere isStartLine (splitLines readme) = [])
    (hes : idxWhere isEndLine (splitLines readme) = [])
    (_hdoc : doc ≠ [])
    (hdS : ∀ l ∈ splitLines (rewriteLinks crate doc), isStartLine l = false)
    (hdE : ∀ l ∈ splitLines (rewriteLinks crate doc), isEndLine l = false) :
    ∃ out, transform_readme readme doc crate crlf = .ok out ∧
      splitLines out = (splitLines readme).take i ++
        splitLines (regionText crlf (rewriteLinks crate doc)) ++
        (splitLines readme).drop (i + 1) ∧
      idxWhere isStartLine (splitLines out) = [i] ∧
      idxWhere isEndLine (splitLines out) =
        [i + ((splitLines (rewriteLinks crate doc)).length + 3)] := by
  have hfm := findMarkers_placeholder_intro hps hss hes
  have hiLt : i < (splitLines readme).length :=
    mem_idxWhere_lt _ _ i (by rw [hps]; simp)
  have htkLen : ((splitLines readme).take i).length = i := by
    simp only [List.length_take]
    omega
  have hSfull : ∀ l ∈ splitLines readme, isStartLine l = false :=
    (idxWhere_nil_iff _ _).mp hss
  have hEfull : ∀ l ∈ splitLines readme, isEndLine l = false :=
    (idxWhere_nil_iff _ _).mp hes
  have hsplit : splitLines (unlines ((splitLines readme).take i ++
      splitLines (regionText crlf (rewriteLinks crate doc)) ++
      (splitLines readme).drop (i + 1))) =
      (splitLines readme).take i ++
        splitLines (regionText crlf (rewriteLinks crate doc)) ++
        (splitLines readme).drop (i + 1) := by
    apply splitLines_unlines
    · intro hh
      rcases List.append_eq_nil.mp hh with ⟨h1, h2⟩
      exact splitLines_ne_nil _ (List.append_eq_nil.mp h1).2
    · intro l hl
      rcases List.mem_append.mp hl with hl1 | hl2
      · rcases List.mem_append.mp hl1 with hl3 | hl4
        · exact not_newline_of_mem_splitLines readme l (List.take_subset _ _ hl3)
        · exact not_newline_of_mem_splitLines _ l hl4
      · exact not_newline_of_mem_splitLines readme l (List.drop_subset _ _ hl2)
  refine ⟨_, transform_eq_placeholder hfm, hsplit, ?_, ?_⟩
  · rw [hsplit, List.append_assoc, idxWhere_append, idxWhere_append,
      region_scan_start crlf _ hdS,
      (idxWhere_nil_iff _ _).mpr (fun l hl => hSfull l (List.take_subset _ _ hl)),
      (idxWhere_nil_iff _ _).mpr (fun l hl => hSfull l (List.drop_subset _ _ hl))]
    simp [htkLen]
  · rw [hsplit, List.append_assoc, idxWhere_append, idxWhere_append,
      region_scan_end crlf _ hdE,
      (idxWhere_nil_iff _ _).mpr (fun l hl => hEfull l (List.take_subset _ _ hl)),
      (idxWhere_nil_iff _ _).mpr (fun l hl => hEfull l (List.drop_subset _ _ hl))]
    simp [htkLen]
    omega

/-- C3 witness: the amended round-trip theorem applied at a concrete
document with one placeholder between two text lines and a one-line Doc
Block. -/
theorem c3_roundtrip_witness :
    ∃ out, transform_readme "A\n<!-- cargo-sync-readme -->\nB".data
        "hello".data "mycrate".data false = .ok out ∧
      splitLines out = (splitLines "A\n<!-- cargo-sync-readme -->\nB".data).take 1 ++
        splitLines (regionText false (rewriteLinks "mycrate".data "hello".data)) ++
        (splitLines "A\n<!-- cargo-sync-readme -->\nB".data).drop 2 ∧
      idxWhere isStartLine (splitLines out) = [1] ∧
      idxWhere isEndLine (splitLines out) =
        [1 + ((splitLines (rewriteLinks "mycrate".data "hello".data)).length + 3)] :=
  c3_roundtrip "A\n<!-- cargo-sync-readme -->\nB".data "hello".data
    "mycrate".data false 1 (by decide) (by decide) (by decide) (by decide)
    (by decide) (by decide)

/-! ### Claim C4: structural document errors -/

/-- C4: a document with zero markers, or two or more placeholders, or a
start marker without an end marker, or an end marker without a start
marker, or a start marker after the end marker, makes the transformation
return a structural error instead of a new document, and `main` never
writes the readme file for such a document. -/
theorem c4_structural_errors (readme doc crate : List Char) (crlf : Bool)
    (h : (idxWhere isPlaceholderLine (splitLines readme) = [] ∧
          idxWhere isStartLine (splitLines readme) = [] ∧
          idxWhere isEndLine (splitLines readme) = []) ∨
         2 ≤ (idxWhere isPlaceholderLine (splitLines readme)).length ∨
         (idxWhere isStartLine (splitLines readme) ≠ [] ∧
          idxWhere isEndLine (splitLines readme) = []) ∨
         (idxWhere isStartLine (splitLines readme) = [] ∧
          idxWhere isEndLine (splitLines readme) ≠ []) ∨
         (∃ i j, idxWhere isStartLine (splitLines readme) = [i] ∧
          idxWhere isEndLine (splitLines readme) = [j] ∧ j ≤ i)) :
    (∃ e, transform_readme readme doc crate crlf = .error e) ∧
    ∀ (env : Env) (sh crlf2 check : Bool), env.readmeRead = .ok readme →
      (mainModel env sh crlf2 check).wroteReadme = false := by
  have herr : ∀ (d c : List Char) (f : Bool),
      ∃ e, transform_readme readme d c f = .error e := by
    intro d c f
    have hnok : ∀ cfg, findMarkers (splitLines readme) ≠ .ok cfg := by
      intro cfg hok
      rcases findMarkers_ok_inv hok with
        ⟨⟨i, -, hps⟩, hss, hes⟩ | ⟨i, j, -, hss, hes, hij, hple⟩
      · rcases h with ⟨hp0, -, -⟩ | h2 | ⟨hsne, -⟩ | ⟨-, hene⟩ | ⟨i', j', hs', -, -⟩
        · rw [hps] at hp0; cases hp0
        · rw [hps] at h2; simp at h2
        · exact hsne hss
        · exact hene hes
        · rw [hss] at hs'; cases hs'
      · rcases h with ⟨-, hs0, -⟩ | h2 | ⟨-, he0⟩ | ⟨hs0, -⟩ | ⟨i', j', hs', he', hji⟩
        · rw [hss] at hs0; cases hs0
        · omega
        · rw [hes] at he0; cases he0
        · rw [hss] at hs0; cases hs0
        · rw [hss] at hs'
          rw [hes] at he'
          cases hs'
          cases he'
          omega
    obtain ⟨e, he⟩ := findMarkers_error_of_not_ok hnok
    exact ⟨e, transform_eq_error he⟩
  refine ⟨herr doc crate crlf, ?_⟩
  intro env sh crlf2 check hrr
  unfold mainModel
  cases hc : env.cwdOk
  · simp
  · simp only [if_true]
    cases hm : env.manifestOk
    · simp
    · simp only [if_true]
      cases hcn : env.crateName with
      | none => simp
      | some crate2 =>
        cases het : env.entryText with
        | none => simp
        | some entry =>
          obtain ⟨e, he⟩ := herr (extract_inner_doc entry sh crlf2) crate2 crlf2
          simp [transformationOf, hrr, he]

/-- C4 witness: the structural-error theorem applied to a concrete document
containing no marker of any kind. -/
theorem c4_structural_errors_witness :
    (∃ e, transform_readme "hello world".data "doc".data "mycrate".data false =
      .error e) ∧
    (mainModel ⟨true, true, some "mycrate".data, some "//! doc".data,
      .ok "hello world".data, false⟩ false false false).wroteReadme = false := by
  have h := c4_structural_errors "hello world".data "doc".data "mycrate".data
    false (Or.inl ⟨by decide, by decide, by decide⟩)
  exact ⟨h.1, h.2 _ false false false rfl⟩

/-! ### Extraction lemmas for the hidden-line discipline -/

theorem extractLines_show_hidden : ∀ (ls : List (List Char)) (f : Bool),
    extractLines ls true f = docRun ls
  | [], _ => rfl
  | l :: ls, f => by
    cases h : stripDocMarker l with
    | none => simp [extractLines, docRun, h]
    | some c =>
      by_cases hf : isFenceLine c
      · simp [extractLines, docRun, h, hf, extractLines_show_hidden ls (!f)]
      · simp [extractLines, docRun, h, hf, extractLines_show_hidden ls f]

theorem extractLines_filterHidden : ∀ (ls : List (List Char)) (f : Bool),
    extractLines ls false f = filterHidden f (docRun ls)
  | [], f => by simp [extractLines, docRun, filterHidden]
  | l :: ls, f => by
    cases h : stripDocMarker l with
    | none => simp [extractLines, docRun, h, filterHidden]
    | some c =>
      by_cases hf : isFenceLine c
      · simp [extractLines, docRun, h, filterHidden, hf,
          extractLines_filterHidden ls (!f)]
      · by_cases hh : f && isHiddenLine c
        · simp [extractLines, docRun, h, filterHidden, hf, hh,
            extractLines_filterHidden ls f]
        · simp [extractLines, docRun, h, filterHidden, hf, hh,
            extractLines_filterHidden ls f]

theorem foldFence_cons (s : Bool) (c : List Char) (A : List (List Char)) :
    foldFence s (c :: A) = foldFence (if isFenceLine c then !s else s) A := by
  simp [foldFence]

theorem filterHidden_append : ∀ (s : Bool) (A B : List (List Char)),
    filterHidden s (A ++ B) = filterHidden s A ++ filterHidden (foldFence s A) B
  | s, [], B => by simp [filterHidden, foldFence]
  | s, c :: A, B => by
    by_cases hf : isFenceLine c
    · simp [filterHidden, hf, foldFence_cons, filterHidden_append (!s) A B]
    · by_cases hh : s && isHiddenLine c
      · simp [filterHidden, hf, hh, foldFence_cons, filterHidden_append s A B]
      · simp [filterHidden, hf, hh, foldFence_cons, filterHidden_append s A B]

theorem countP_fence_filterHidden : ∀ (s : Bool) (cs : List (List Char)),
    (filterHidden s cs).countP isFenceLine = cs.countP isFenceLine
  | _, [] => rfl
  | s, c :: cs => by
    by_cases hf : isFenceLine c
    · simp [filterHidden, hf, List.countP_cons,
        countP_fence_filterHidden (!s) cs]
    · by_cases hh : s && isHiddenLine c
      · simp [filterHidden, hf, hh, List.countP_cons,
          countP_fence_filterHidden s cs]
      · simp [filterHidden, hf, hh, List.countP_cons,
          countP_fence_filterHidden s cs]

/-! ### Claim C5: hidden-line filtering -/

/-- C5: hidden-line filtering: extraction with the show-hidden flag set
retains every line of the doc run; with the flag unset extraction is
exactly fence-state-aware hidden-line filtering of the doc run; a line
marked hidden inside a fence is omitted; a non-fence line outside a fence
is never filtered, hidden marker or not; and a fence-delimiter line is
itself always retained (never treated as hidden), only toggling the
state. -/
theorem c5_hidden_filtering :
    (∀ (ls : List (List Char)) (f : Bool), extractLines ls true f = docRun ls) ∧
    (∀ (ls : List (List Char)) (f : Bool),
      extractLines ls false f = filterHidden f (docRun ls)) ∧
    (∀ (s : Bool) (A B : List (List Char)) (c : List Char),
      foldFence s A = true → isFenceLine c = false → isHiddenLine c = true →
      filterHidden s (A ++ c :: B) = filterHidden s A ++ filterHidden true B) ∧
    (∀ (s : Bool) (A B : List (List Char)) (c : List Char),
      foldFence s A = false → isFenceLine c = false →
      filterHidden s (A ++ c :: B) =
        filterHidden s A ++ c :: filterHidden false B) ∧
    (∀ (s : Bool) (A B : List (List Char)) (c : List Char),
      isFenceLine c = true →
      filterHidden s (A ++ c :: B) =
        filterHidden s A ++ c :: filterHidden (!foldFence s A) B) := by
  refine ⟨extractLines_show_hidden, extractLines_filterHidden, ?_, ?_, ?_⟩
  · intro s A B c h1 h2 h3
    rw [filterHidden_append, h1]
    simp [filterHidden, h2, h3]
  · intro s A B c h1 h2
    rw [filterHidden_append, h1]
    simp [filterHidden, h2]
  · intro s A B c h1
    rw [filterHidden_append]
    simp [filterHidden, h1]

/-- C5 witness: the hidden-line-omission part of the filtering theorem
applied to a concrete fenced block with one hidden line. -/
theorem c5_hidden_filtering_witness :
    filterHidden false (["```".data] ++ "# hid".data :: ["x".data]) =
      filterHidden false ["```".data] ++ filterHidden true ["x".data] :=
  c5_hidden_filtering.2.2.1 false ["```".data] ["x".data] "# hid".data
    (by decide) (by decide) (by decide)

/-! ### Claim C6: fence lines and the Doc Block -/

/-- C6, counterexample to the claim as stated: extraction of a doc comment
containing a fenced code example keeps the fence-delimiter lines in the
Doc Block, so the Doc Block does contain fence-delimiter lines. -/
theorem c6_counterexample :
    extract_inner_doc "//! ```\n//! code\n//! ```\n".data false false =
      "```\ncode\n```".data ∧
    fenceStr ∈ splitLines (extract_inner_doc
      "//! ```\n//! code\n//! ```\n".data false false) :=
  ⟨rfl, by decide⟩

/-- C6 (amended): extraction never filters fence-delimiter lines out of
the Doc Block: for every source-line list and every flag setting, the
extracted lines contain exactly as many fence-delimiter lines as the full
doc run does (fence lines are always retained, never dropped as hidden). -/
theorem c6_fence_preserved (ls : List (List Char)) (sh f : Bool) :
    (extractLines ls sh f).countP isFenceLine = (docRun ls).countP isFenceLine := by
  cases sh
  · rw [extractLines_filterHidden]
    exact countP_fence_filterHidden f (docRun ls)
  · rw [extractLines_show_hidden]

/-! ### Link-rewriter lemmas -/

theorem splitAtClose_eq : ∀ {l a b : List Char},
    splitAtClose l = some (a, b) → l = a ++ ')' :: b ∧ ')' ∉ a
  | [], a, b, h => by simp [splitAtClose] at h
  | c :: rest, a, b, h => by
    by_cases hc : c = ')'
    · subst hc
      simp [splitAtClose] at h
      obtain ⟨rfl, rfl⟩ := h
      simp
    · simp only [splitAtClose, if_neg hc] at h
      cases hsp : splitAtClose rest with
      | none => rw [hsp] at h; cases h
      | some pr =>
        obtain ⟨a', b'⟩ := pr
        rw [hsp] at h
        simp only [Option.some.injEq, Prod.mk.injEq] at h
        obtain ⟨h1, h2⟩ := h
        obtain ⟨heq, hmem⟩ := splitAtClose_eq hsp
        subst h1
        subst h2
        refine ⟨by rw [heq]; rfl, ?_⟩
        intro hin
        rcases List.mem_cons.mp hin with h3 | h3
        · exact hc h3.symm
        · exact hmem h3

theorem splitAtClose_append : ∀ (a b : List Char), ')' ∉ a →
    splitAtClose (a ++ ')' :: b) = some (a, b)
  | [], b, _ => by simp [splitAtClose]
  | c :: a', b, h => by
    have hc : c ≠ ')' := fun hh => h (by simp [hh])
    have ih := splitAtClose_append a' b (fun hh => h (by simp [hh]))
    simp [splitAtClose, hc, ih]

theorem rewriteLinksF_congr (crate : List Char) :
    ∀ (f1 f2 : Nat) (l : List Char), l.length ≤ f1 → l.length ≤ f2 →
      rewriteLinksF crate f1 l = rewriteLinksF crate f2 l := by
  intro f1
  induction f1 with
  | zero =>
    intro f2 l h1 _
    have hl : l = [] := List.eq_nil_of_length_eq_zero (by omega)
    subst hl
    cases f2 <;> rfl
  | succ f1' ih =>
    intro f2 l h1 h2
    cases f2 with
    | zero =>
      have hl : l = [] := List.eq_nil_of_length_eq_zero (by omega)
      subst hl
      rfl
    | succ f2' =>
      cases l with
      | nil => rfl
      | cons c rest =>
        simp only [List.length_cons] at h1 h2
        simp only [rewriteLinksF]
        by_cases hc : c = ']' ∧ rest.head? = some '('
        · rw [if_pos hc, if_pos hc]
          have htl : rest.tail.length ≤ rest.length := by
            cases rest <;> simp
          by_cases hp : crateRefStr.isPrefixOf rest.tail
          · rw [if_pos hp, if_pos hp]
            cases hsp : splitAtClose (rest.tail.drop crateRefStr.length) with
            | none =>
              show ']' :: '(' :: rewriteLinksF crate f1' rest.tail =
                ']' :: '(' :: rewriteLinksF crate f2' rest.tail
              rw [ih f2' rest.tail (by omega) (by omega)]
            | some pr =>
              obtain ⟨path, rest2⟩ := pr
              obtain ⟨heq, -⟩ := splitAtClose_eq hsp
              have h2len : rest2.length ≤ rest.tail.length := by
                have hlen1 := congrArg List.length heq
                simp only [List.length_drop, List.length_append,
                  List.length_cons] at hlen1
                omega
              show ']' :: '(' ::
                  (urlOf crate path ++ ')' :: rewriteLinksF crate f1' rest2) =
                ']' :: '(' ::
                  (urlOf crate path ++ ')' :: rewriteLinksF crate f2' rest2)
              rw [ih f2' rest2 (by omega) (by omega)]
          · rw [if_neg hp, if_neg hp, ih f2' rest.tail (by omega) (by omega)]
        · rw [if_neg hc, if_neg hc, ih f2' rest (by omega) (by omega)]

theorem rewriteLinks_cons_plain (crate : List Char) (c : Char) (rest : List Char)
    (h : ¬(c = ']' ∧ rest.head? = some '(')) :
    rewriteLinks crate (c :: rest) = c :: rewriteLinks crate rest := by
  unfold rewriteLinks
  simp only [List.length_cons, rewriteLinksF]
  rw [if_neg h]

theorem rewriteLinks_pre (crate : List Char) :
    ∀ (pre t : List Char), ']' ∉ pre →
      rewriteLinks crate (pre ++ t) = pre ++ rewriteLinks crate t
  | [], t, _ => by simp
  | a :: pre', t, h => by
    have ha : a ≠ ']' := fun hh => h (by simp [hh])
    rw [List.cons_append,
      rewriteLinks_cons_plain crate a (pre' ++ t) (fun hh => ha hh.1),
      rewriteLinks_pre crate pre' t (fun hh => h (by simp [hh]))]
    rfl

theorem rewriteLinksF_cons (crate : List Char) (fuel : Nat) (c : Char)
    (rest : List Char) :
    rewriteLinksF crate (fuel + 1) (c :: rest) =
      if c = ']' ∧ rest.head? = some '(' then
        if crateRefStr.isPrefixOf rest.tail then
          match splitAtClose (rest.tail.drop crateRefStr.length) with
          | some (path, rest2) =>
            ']' :: '(' :: (urlOf crate path ++ ')' :: rewriteLinksF crate fuel rest2)
          | none => ']' :: '(' :: rewriteLinksF crate fuel rest.tail
        else ']' :: '(' :: rewriteLinksF crate fuel rest.tail
      else c :: rewriteLinksF crate fuel rest := rfl

theorem rewriteLinks_link (crate path post : List Char) (hpath : ')' ∉ path) :
    rewriteLinks crate (']' :: '(' :: (crateRefStr ++ path ++ ')' :: post)) =
      ']' :: '(' :: (urlOf crate path ++ ')' :: rewriteLinks crate post) := by
  have hpfx : crateRefStr.isPrefixOf
      (('(' :: (crateRefStr ++ path ++ ')' :: post)).tail) = true := by
    rw [List.tail_cons, List.isPrefixOf_iff_prefix, List.append_assoc]
    exact ⟨path ++ ')' :: post, rfl⟩
  have hsp : splitAtClose
      ((('(' :: (crateRefStr ++ path ++ ')' :: post)).tail).drop
        crateRefStr.length) = some (path, post) := by
    rw [List.tail_cons, List.append_assoc, List.drop_left]
    exact splitAtClose_append path post hpath
  unfold rewriteLinks
  simp only [List.length_cons]
  rw [rewriteLinksF_cons, if_pos (by exact ⟨rfl, rfl⟩), if_pos hpfx, hsp]
  show ']' :: '(' :: (urlOf crate path ++ ')' :: rewriteLinksF crate
      ((crateRefStr ++ path ++ ')' :: post).length + 1) post) = _
  have hcg : rewriteLinksF crate
      ((crateRefStr ++ path ++ ')' :: post).length + 1) post =
      rewriteLinksF crate post.length post := by
    apply rewriteLinksF_congr
    · simp only [List.length_append, List.length_cons]
      omega
    · exact Nat.le_refl _
  rw [hcg]

/-! ### Claim C7: link rewriting -/

/-- C7: link rewriting: an inline link whose destination is exactly the
crate-relative form, such as `[see](crate::foo::Bar)` for crate name
`mycrate`, is rewritten so the destination becomes the docs.rs URL
`https://docs.rs/mycrate/latest/mycrate/foo/Bar` while everything in front
of the destination — in particular the visible link text — is preserved,
and scanning continues after the link (covering every occurrence); a link
whose destination does not match the crate-relative form, such as
`[see](other::Bar)`, is left unchanged. -/
theorem c7_link_rewriting :
    (∀ (crate pre path post : List Char), ']' ∉ pre → ')' ∉ path →
      rewriteLinks crate
          (pre ++ ']' :: '(' :: (crateRefStr ++ path ++ ')' :: post)) =
        pre ++ ']' :: '(' ::
          (urlOf crate path ++ ')' :: rewriteLinks crate post)) ∧
    rewriteLinks "mycrate".data "[see](crate::foo::Bar)".data =
      "[see](https://docs.rs/mycrate/latest/mycrate/foo/Bar)".data ∧
    rewriteLinks "mycrate".data "[see](other::Bar)".data =
      "[see](other::Bar)".data := by
  refine ⟨?_, by decide, by decide⟩
  intro crate pre path post hpre hpath
  rw [rewriteLinks_pre crate pre _ hpre, rewriteLinks_link crate path post hpath]

/-- C7 witness: the general rewriting part applied at the claim's concrete
link, with trailing text showing that scanning continues. -/
theorem c7_link_rewriting_witness :
    rewriteLinks "mycrate".data ("[see".data ++ ']' :: '(' ::
        (crateRefStr ++ "foo::Bar".data ++ ')' :: " tail".data)) =
      "[see".data ++ ']' :: '(' :: (urlOf "mycrate".data "foo::Bar".data ++
        ')' :: rewriteLinks "mycrate".data " tail".data) :=
  c7_link_rewriting.1 "mycrate".data "[see".data "foo::Bar".data " tail".data
    (by decide) (by decide)

/-! ### Claim C9: the error branch of main -/

/-- C9: when the readme read or the transformation fails, `main` prints the
error to stderr, does not write the readme, and falls through to the end of
`main`, terminating with the success exit status 0 — unlike the
current-dir, manifest, crate-name and entry-point failure paths, which all
exit with status 1. -/
theorem c9_error_branch :
    (∀ (env : Env) (sh crlf check : Bool) (crate entry : List Char)
        (e : AppError),
      env.cwdOk = true → env.manifestOk = true →
      env.crateName = some crate → env.entryText = some entry →
      transformationOf env.readmeRead (extract_inner_doc entry sh crlf)
        crate crlf = .error e →
      mainModel env sh crlf check = ⟨0, false, true⟩) ∧
    (∀ (env : Env) (sh crlf check : Bool), env.cwdOk = false →
      mainModel env sh crlf check = ⟨1, false, true⟩) ∧
    (∀ (env : Env) (sh crlf check : Bool), env.cwdOk = true →
      env.manifestOk = false →
      mainModel env sh crlf check = ⟨1, false, true⟩) ∧
    (∀ (env : Env) (sh crlf check : Bool), env.cwdOk = true →
      env.manifestOk = true → env.crateName = none →
      mainModel env sh crlf check = ⟨1, false, true⟩) ∧
    (∀ (env : Env) (sh crlf check : Bool) (crate : List Char),
      env.cwdOk = true → env.manifestOk = true → env.crateName = some crate →
      env.entryText = none →
      mainModel env sh crlf check = ⟨1, false, true⟩) := by
  refine ⟨?_, ?_, ?_, ?_, ?_⟩
  · intro env sh crlf check crate entry e h1 h2 h3 h4 h5
    simp [mainModel, h1, h2, h3, h4, h5]
  · intro env sh crlf check h1
    simp [mainModel, h1]
  · intro env sh crlf check h1 h2
    simp [mainModel, h1, h2]
  · intro env sh crlf check h1 h2 h3
    simp [mainModel, h1, h2, h3]
  · intro env sh crlf check crate h1 h2 h3 h4
    simp [mainModel, h1, h2, h3, h4]

/-- C9 witness: the error-branch part of the theorem applied to a concrete
environment whose readme read fails. -/
theorem c9_error_branch_witness :
    mainModel ⟨true, true, some "mycrate".data, some "//! doc".data,
        .error (.readFail "no readme".data), false⟩ false false false =
      ⟨0, false, true⟩ :=
  c9_error_branch.1 ⟨true, true, some "mycrate".data, some "//! doc".data,
      .error (.readFail "no readme".data), false⟩ false false false
    "mycrate".data "//! doc".data (.readFail "no readme".data)
    rfl rfl rfl rfl rfl

/-! ### Claim C10: check-mode frame property -/

/-- C10: in check mode, when the transformation succeeds, `main` never
writes the readme; it exits with status 1 exactly when the newly produced
readme differs from the original, otherwise terminates normally with
status 0; and the warning exit status 2 is never used in check mode,
however the warning flag is set. -/
theorem c10_check_mode (env : Env) (sh crlf : Bool)
    (crate entry old nw : List Char)
    (h1 : env.cwdOk = true) (h2 : env.manifestOk = true)
    (h3 : env.crateName = some crate) (h4 : env.entryText = some entry)
    (h5 : transformationOf env.readmeRead (extract_inner_doc entry sh crlf)
      crate crlf = .ok (old, nw)) :
    (mainModel env sh crlf true).wroteReadme = false ∧
    ((mainModel env sh crlf true).exitCode = 1 ↔ old ≠ nw) ∧
    (mainModel env sh crlf true).exitCode ≠ 2 ∧
    (old = nw → mainModel env sh crlf true = ⟨0, false, env.hadWarnings⟩) := by
  by_cases heq : old = nw
  · subst heq
    simp [mainModel, h1, h2, h3, h4, h5]
  · simp [mainModel, h1, h2, h3, h4, h5, heq]

/-- C10 witness: the check-mode theorem applied to a concrete environment
whose readme is already synchronized. -/
theorem c10_check_mode_witness :
    (mainModel ⟨true, true, some "mycrate".data, some "//! hello".data,
        .ok "<!-- cargo-sync-readme start -->\n\nhello\n\n<!-- cargo-sync-readme end -->".data,
        true⟩ false false true).wroteReadme = false ∧
    ((mainModel ⟨true, true, some "mycrate".data, some "//! hello".data,
        .ok "<!-- cargo-sync-readme start -->\n\nhello\n\n<!-- cargo-sync-readme end -->".data,
        true⟩ false false true).exitCode = 1 ↔
      "<!-- cargo-sync-readme start -->\n\nhello\n\n<!-- cargo-sync-readme end -->".data ≠
        "<!-- cargo-sync-readme start -->\n\nhello\n\n<!-- cargo-sync-readme end -->".data) ∧
    (mainModel ⟨true, true, some "mycrate".data, some "//! hello".data,
        .ok "<!-- cargo-sync-readme start -->\n\nhello\n\n<!-- cargo-sync-readme end -->".data,
        true⟩ false false true).exitCode ≠ 2 ∧
    ("<!-- cargo-sync-readme start -->\n\nhello\n\n<!-- cargo-sync-readme end -->".data =
        "<!-- cargo-sync-readme start -->\n\nhello\n\n<!-- cargo-sync-readme end -->".data →
      mainModel ⟨true, true, some "mycrate".data, some "//! hello".data,
        .ok "<!-- cargo-sync-readme start -->\n\nhello\n\n<!-- cargo-sync-readme end -->".data,
        true⟩ false false true = ⟨0, false, true⟩) :=
  c10_check_mode ⟨true, true, some "mycrate".data, some "//! hello".data,
      .ok "<!-- cargo-sync-readme start -->\n\nhello\n\n<!-- cargo-sync-readme end -->".data,
      true⟩ false false "mycrate".data "//! hello".data
    "<!-- cargo-sync-readme start -->\n\nhello\n\n<!-- cargo-sync-readme end -->".data
    "<!-- cargo-sync-readme start -->\n\nhello\n\n<!-- cargo-sync-readme end -->".data
    rfl rfl rfl rfl rfl

/-! ### CRLF scanning lemmas -/

theorem crlfScan_cons (p : Bool) (c : Char) (t : List Char) :
    crlfScan p (c :: t) =
      if c = '\n' then p && crlfScan false t
      else crlfScan (decide (c = '\r')) t := rfl

theorem crlfScan_append : ∀ (a : List Char) (b : List Char) (p : Bool),
    crlfScan p (a ++ b) = (crlfScan p a && crlfScan (prevCrAfter p a) b)
  | [], b, p => by simp [crlfScan, prevCrAfter]
  | c :: a', b, p => by
    by_cases hc : c = '\n'
    · subst hc
      have ih := crlfScan_append a' b false
      simp only [List.cons_append, crlfScan, if_pos rfl, prevCrAfter,
        List.append_eq]
      rw [show (decide (('\n' : Char) = '\r')) = false from by decide, ih]
      cases p <;> simp
    · have ih := crlfScan_append a' b (decide (c = '\r'))
      simp only [List.cons_append, crlfScan, if_neg hc, prevCrAfter,
        List.append_eq]
      rw [ih]

theorem crlfScan_no_newline : ∀ (s : List Char) (p : Bool), '\n' ∉ s →
    crlfScan p s = true
  | [], _, _ => rfl
  | c :: s', p, h => by
    have hc : c ≠ '\n' := fun hh => h (by simp [hh])
    simp only [crlfScan, if_neg hc]
    exact crlfScan_no_newline s' _ (fun hh => h (by simp [hh]))

theorem crlfScan_no_newline_append (a b : List Char) (ha : '\n' ∉ a) (p : Bool) :
    crlfScan p (a ++ b) = crlfScan (prevCrAfter p a) b := by
  rw [crlfScan_append, crlfScan_no_newline a p ha, Bool.true_and]

theorem crlfScan_crlf_cons (q : Bool) (y : List Char) :
    crlfScan q ('\r' :: '\n' :: y) = crlfScan false y := by
  simp [crlfScan]

theorem joinWith_crlf_clean :
    ∀ L : List (List Char), (∀ l ∈ L, '\n' ∉ l) →
      crlfOnly (joinWith ['\r', '\n'] L) = true
  | [], _ => rfl
  | [l], h => crlfScan_no_newline l false (h l (by simp))
  | l :: x :: xs, h => by
    have ih := joinWith_crlf_clean (x :: xs) (fun a ha => h a (by simp [ha]))
    show crlfScan false (l ++ ['\r', '\n'] ++ joinWith ['\r', '\n'] (x :: xs)) = true
    rw [List.append_assoc,
      crlfScan_no_newline_append l _ (h l (by simp)) false]
    simp only [List.cons_append, List.nil_append]
    rw [crlfScan_crlf_cons]
    exact ih

theorem pathRewrite_crlf : ∀ (s : List Char) (p : Bool),
    crlfScan p s = true → crlfScan p (pathRewrite s) = true
  | [], _, h => h
  | [c], p, h => by simpa [pathRewrite] using h
  | c :: d :: rest, p, h => by
    by_cases hcd : c = ':' ∧ d = ':'
    · obtain ⟨rfl, rfl⟩ := hcd
      have hstep : pathRewrite (':' :: ':' :: rest) = '/' :: pathRewrite rest := by
        simp [pathRewrite]
      rw [hstep]
      have h' : crlfScan false rest = true := by
        simpa [crlfScan] using h
      have hrec := pathRewrite_crlf rest false h'
      simpa [crlfScan] using hrec
    · simp only [pathRewrite, if_neg hcd]
      by_cases hc : c = '\n'
      · subst hc
        rw [crlfScan_cons, if_pos rfl] at h ⊢
        rw [Bool.and_eq_true] at h
        obtain ⟨hp, h2⟩ := h
        rw [hp, Bool.true_and]
        exact pathRewrite_crlf (d :: rest) false h2
      · rw [crlfScan_cons, if_neg hc] at h ⊢
        exact pathRewrite_crlf (d :: rest) (decide (c = '\r')) h

theorem urlOf_scan (crate path out2 : List Char) (hcr : '\n' ∉ crate)
    (hpath : crlfScan false path = true) (hout : crlfScan false out2 = true) :
    crlfScan false (urlOf crate path ++ ')' :: out2) = true := by
  have hshape : urlOf crate path ++ ')' :: out2 =
      "https://docs.rs/".data ++ (crate ++ ("/latest/".data ++ (crate ++
        ("/".data ++ (pathRewrite path ++ ')' :: out2))))) := by
    simp [urlOf, List.append_assoc]
  rw [hshape,
    crlfScan_no_newline_append _ _ (by decide) false,
    crlfScan_no_newline_append _ _ hcr,
    crlfScan_no_newline_append _ _ (by decide),
    crlfScan_no_newline_append _ _ hcr,
    crlfScan_no_newline_append _ _ (by decide)]
  have hpvStep : ∀ q : Bool, prevCrAfter q "/".data = false := by decide
  rw [hpvStep]
  rw [crlfScan_append, pathRewrite_crlf path false hpath, Bool.true_and]
  have hclose : ∀ q : Bool, crlfScan q (')' :: out2) = crlfScan false out2 := by
    intro q
    simp [crlfScan]
  rw [hclose, hout]

theorem rewriteLinksF_crlf (crate : List Char) (hcr : '\n' ∉ crate) :
    ∀ (fuel : Nat) (s : List Char) (p : Bool), s.length ≤ fuel →
      crlfScan p s = true → crlfScan p (rewriteLinksF crate fuel s) = true := by
  intro fuel
  induction fuel with
  | zero =>
    intro s p _ h2
    exact h2
  | succ f ih =>
    intro s p hlen hscan
    cases s with
    | nil => exact hscan
    | cons c rest =>
      rw [rewriteLinksF_cons]
      by_cases hc : c = ']' ∧ rest.head? = some '('
      · rw [if_pos hc]
        obtain ⟨rfl, hhd⟩ := hc
        cases rest with
        | nil => simp at hhd
        | cons d rest1 =>
          simp only [List.head?_cons, Option.some.injEq] at hhd
          subst hhd
          simp only [List.tail_cons]
          simp only [List.length_cons] at hlen
          have hs1 : crlfScan false rest1 = true := hscan
          by_cases hp : crateRefStr.isPrefixOf rest1
          · rw [if_pos hp]
            cases hsp : splitAtClose (rest1.drop crateRefStr.length) with
            | none =>
              have hout := ih rest1 false (by omega) hs1
              show crlfScan p
                (']' :: '(' :: rewriteLinksF crate f rest1) = true
              exact hout
            | some pr =>
              obtain ⟨path, rest2⟩ := pr
              obtain ⟨heq, hnp⟩ := splitAtClose_eq hsp
              obtain ⟨t, ht⟩ := List.isPrefixOf_iff_prefix.mp hp
              have htd : t = rest1.drop crateRefStr.length := by
                rw [← ht, List.drop_left]
              have hrest1 : rest1 = crateRefStr ++ (path ++ ')' :: rest2) := by
                rw [← ht, htd, heq]
              have hlen2 : rest2.length + 1 ≤ rest1.length := by
                rw [hrest1]
                simp only [List.length_append, List.length_cons]
                omega
              have hX : crlfScan false (path ++ ')' :: rest2) = true := by
                rw [hrest1] at hs1
                rw [crlfScan_no_newline_append crateRefStr _ (by decide) false]
                  at hs1
                have hpc : prevCrAfter false crateRefStr = false := by decide
                rwa [hpc] at hs1
              rw [crlfScan_append, Bool.and_eq_true] at hX
              obtain ⟨hpath, hrest2X⟩ := hX
              have hrest2 : crlfScan false rest2 = true := hrest2X
              have hout2 := ih rest2 false (by omega) hrest2
              show crlfScan p (']' :: '(' :: (urlOf crate path ++
                ')' :: rewriteLinksF crate f rest2)) = true
              exact urlOf_scan crate path (rewriteLinksF crate f rest2)
                hcr hpath hout2
          · rw [if_neg hp]
            have hout := ih rest1 false (by omega) hs1
            show crlfScan p
              (']' :: '(' :: rewriteLinksF crate f rest1) = true
            exact hout
      · rw [if_neg hc]
        rw [crlfScan_cons] at hscan ⊢
        simp only [List.length_cons] at hlen
        by_cases hcn : c = '\n'
        · rw [if_pos hcn] at hscan ⊢
          rw [Bool.and_eq_true] at hscan
          obtain ⟨hp2, h2⟩ := hscan
          rw [hp2, Bool.true_and]
          exact ih rest false (by omega) h2
        · rw [if_neg hcn] at hscan ⊢
          exact ih rest _ (by omega) hscan

theorem rewriteLinks_crlf (crate s : List Char) (hcr : '\n' ∉ crate)
    (h : crlfOnly s = true) : crlfOnly (rewriteLinks crate s) = true :=
  rewriteLinksF_crlf crate hcr s.length s false (Nat.le_refl _) h

/-! ### The extracted Doc Block is CRLF-clean -/

theorem stripDocMarker_sublist {l c : List Char}
    (h : stripDocMarker l = some c) : c.Sublist l := by
  unfold stripDocMarker at h
  by_cases hp : docMarkerStr.isPrefixOf l
  · rw [if_pos hp] at h
    by_cases hh : (l.drop 3).head? = some ' '
    · rw [if_pos hh] at h
      injection h with h2
      subst h2
      exact ((l.drop 3).tail_sublist).trans (l.drop_sublist 3)
    · rw [if_neg hh] at h
      injection h with h2
      subst h2
      exact l.drop_sublist 3
  · rw [if_neg hp] at h
    cases h

theorem extractLines_no_newline : ∀ (ls : List (List Char)) (sh f : Bool),
    (∀ l ∈ ls, '\n' ∉ l) → ∀ c ∈ extractLines ls sh f, '\n' ∉ c
  | [], _, _, _, c, hc => by simp [extractLines] at hc
  | l :: ls, sh, f, h, c, hc => by
    cases hsd : stripDocMarker l with
    | none =>
      simp only [extractLines, hsd] at hc
      cases hc
    | some c0 =>
      have hc0 : '\n' ∉ c0 :=
        fun hm => h l (by simp) ((stripDocMarker_sublist hsd).subset hm)
      have htail : ∀ a ∈ ls, '\n' ∉ a := fun a ha => h a (by simp [ha])
      by_cases hfc : isFenceLine c0
      · simp only [extractLines, hsd, if_pos hfc] at hc
        rcases List.mem_cons.mp hc with rfl | hc2
        · exact hc0
        · exact extractLines_no_newline ls sh (!f) htail c hc2
      · by_cases hh : (f && isHiddenLine c0 && !sh) = true
        · simp only [extractLines, hsd, if_neg hfc, if_pos hh] at hc
          exact extractLines_no_newline ls sh f htail c hc
        · simp only [extractLines, hsd, if_neg hfc, if_neg hh] at hc
          rcases List.mem_cons.mp hc with rfl | hc2
          · exact hc0
          · exact extractLines_no_newline ls sh f htail c hc2

theorem srcLines_no_newline (s : List Char) : ∀ l ∈ srcLines s, '\n' ∉ l := by
  intro l hl
  rcases List.mem_map.mp hl with ⟨l0, hl0, rfl⟩
  intro hm
  apply not_newline_of_mem_splitLines s l0 hl0
  unfold dropTrailingCr at hm
  by_cases hg : l0.getLast? = some '\r'
  · rw [if_pos hg] at hm
    exact l0.dropLast_sublist.subset hm
  · rw [if_neg hg] at hm
    exact hm

theorem extract_crlf_clean (src : List Char) (sh : Bool) :
    crlfOnly (extract_inner_doc src sh true) = true := by
  unfold extract_inner_doc
  rw [show nlStr true = ['\r', '\n'] from rfl]
  exact joinWith_crlf_clean _
    (extractLines_no_newline (srcLines src) sh false (srcLines_no_newline src))

theorem regionText_crlf_clean (d' : List Char) (h : crlfOnly d' = true) :
    crlfOnly (regionText true d') = true := by
  have hshape : regionText true d' =
      startMarker ++ ('\r' :: '\n' :: ('\r' :: '\n' :: (d' ++
        ('\r' :: '\n' :: ('\r' :: '\n' :: endMarker))))) := by
    simp [regionText, nlStr]
  unfold crlfOnly at h ⊢
  rw [hshape, crlfScan_no_newline_append _ _ (by decide) false,
    crlfScan_crlf_cons, crlfScan_crlf_cons,
    crlfScan_append, h, Bool.true_and, crlfScan_crlf_cons, crlfScan_crlf_cons]
  exact crlfScan_no_newline endMarker false (by decide)

/-! ### Claim C8: newline convention -/

/-- C8: for every successful pipeline transformation with the CRLF flag
set (and a crate name without newline characters), the output consists of
the document's original prefix bytes, the freshly generated synchronized
region, and the original suffix bytes; the prefix and suffix keep exactly
their original line-break bytes, and inside the newly written region every
line-feed character is immediately preceded by a carriage return — every
internal line break of the region is a CRLF pair. -/
theorem c8_newline_convention (src readme crate : List Char) (sh : Bool)
    (out : List Char) (hcr : '\n' ∉ crate)
    (hok : pipeline src readme crate sh true = .ok out) :
    ∃ preB oldB sufB, readme = preB ++ oldB ++ sufB ∧
      out = preB ++
        regionText true (rewriteLinks crate (extract_inner_doc src sh true)) ++
        sufB ∧
      crlfOnly (regionText true
        (rewriteLinks crate (extract_inner_doc src sh true))) = true := by
  unfold pipeline at hok
  obtain ⟨pre, mid, suf, hdec, hmid, hout⟩ := transform_shape hok
  refine ⟨joinL pre, unlines mid, joinR suf, ?_, ?_, ?_⟩
  · conv_lhs => rw [← unlines_splitLines readme]
    rw [hdec, unlines_decomp _ _ _ hmid]
  · rw [hout, unlines_decomp _ _ _ (splitLines_ne_nil _), unlines_splitLines]
  · exact regionText_crlf_clean _
      (rewriteLinks_crlf crate _ hcr (extract_crlf_clean src sh))

/-- C8 witness: the newline-convention theorem applied to a concrete CRLF
run on a document whose suffix uses CRLF line breaks. -/
theorem c8_newline_convention_witness :
    ∃ preB oldB sufB,
      "<!-- cargo-sync-readme -->\r\nx\r\n".data = preB ++ oldB ++ sufB ∧
      "<!-- cargo-sync-readme start -->\r\n\r\na\r\nb\r\n\r\n<!-- cargo-sync-readme end -->\nx\r\n".data =
        preB ++ regionText true (rewriteLinks "mycrate".data
          (extract_inner_doc "//! a\n//! b\n".data false true)) ++ sufB ∧
      crlfOnly (regionText true (rewriteLinks "mycrate".data
        (extract_inner_doc "//! a\n//! b\n".data false true))) = true :=
  c8_newline_convention "//! a\n//! b\n".data
    "<!-- cargo-sync-readme -->\r\nx\r\n".data "mycrate".data false _
    (by decide) rfl

/-- C1 witness: the amended idempotence theorem applied at a concrete entry
source, document and crate name. -/
theorem c1_idempotent_amended_witness :
    pipeline "//! hello".data "<!-- cargo-sync-readme -->".data "mycrate".data
        false false =
      .ok ("<!-- cargo-sync-readme start -->\n\nhello\n\n<!-- cargo-sync-readme end -->".data) ∧
    pipeline "//! hello".data
        "<!-- cargo-sync-readme start -->\n\nhello\n\n<!-- cargo-sync-readme end -->".data
        "mycrate".data false false =
      .ok ("<!-- cargo-sync-readme start -->\n\nhello\n\n<!-- cargo-sync-readme end -->".data) :=
  ⟨rfl, c1_idempotent_amended "//! hello".data "<!-- cargo-sync-readme -->".data
    "mycrate".data false false _ rfl (by decide)⟩

end SyncReadme
